import Mathlib

/-!
Verification of the render-pipeline core of the SORT renderer
(`src/system.cpp`): tile decomposition (`System::_pushRenderTask`),
render orchestration (`System::Render` / `System::PreProcess`),
shared-memory setup (`System::Setup`) and progress reporting
(`System::_outputProgress`), as shallow Lean embeddings.
-/

namespace SORT

/-! ## Tile spiral: embedding of `System::_pushRenderTask`

The C++ loop keeps `cur_pos : Vector2i`, `cur_dir`, `cur_len`,
`cur_dir_len` and a direction table
`dir[4] = {(0,-1), (-1,0), (0,1), (1,0)}`.  Every iteration first emits a
task when `cur_pos` lies inside the tile grid, then turns when
`cur_len >= cur_dir_len` (updating `cur_dir_len += 1 - cur_dir % 2` with
the new direction), moves one cell, and stops as soon as the new position
is out of range on both axes. -/

/-- The direction table `dir[4]` of `_pushRenderTask` (index taken mod 4). -/
def dirVec : Nat → Int × Int
  | 0 => (0, -1)
  | 1 => (-1, 0)
  | 2 => (0, 1)
  | _ => (1, 0)

/-- The mutable loop state of `_pushRenderTask`:
`cur_pos`, `cur_dir`, `cur_len`, `cur_dir_len`. -/
structure SpiralState where
  pos : Int × Int
  dir : Nat
  len : Nat
  dirLen : Nat
deriving Repr, DecidableEq

/-- One turn-and-move step of the loop (lines 217-227 of `system.cpp`):
if `cur_len >= cur_dir_len` turn to the next direction and update the run
length, then move one cell in the current direction and bump `cur_len`. -/
def turnMove (s : SpiralState) : SpiralState :=
  let d := if s.dirLen ≤ s.len then (s.dir + 1) % 4 else s.dir
  let l := if s.dirLen ≤ s.len then 0 else s.len
  let dl := if s.dirLen ≤ s.len then s.dirLen + (1 - ((s.dir + 1) % 4) % 2) else s.dirLen
  { pos := (s.pos.1 + (dirVec d).1, s.pos.2 + (dirVec d).2),
    dir := d, len := l + 1, dirLen := dl }

/-- Initial loop state: `cur_pos = tile_num / 2`, `cur_dir = 0`,
`cur_len = 0`, `cur_dir_len = 1`. -/
def initState (c : Int × Int) : SpiralState := ⟨c, 0, 0, 1⟩

/-- The loop state after `n` move iterations starting from center `c`. -/
def stateAt (c : Int × Int) (n : Nat) : SpiralState := turnMove^[n] (initState c)

/-- `cur_pos` after `n` moves. -/
def posAt (c : Int × Int) (n : Nat) : Int × Int := (stateAt c n).pos

/-- Grid membership test of the emission guard
(`cur_pos.x >= 0 && cur_pos.x < tile_num.x && ...`). -/
def inGridB (tn : Int × Int) (p : Int × Int) : Bool :=
  decide (0 ≤ p.1) && decide (p.1 < tn.1) && decide (0 ≤ p.2) && decide (p.2 < tn.2)

/-- Termination test of the loop
(`(cur_pos.x < 0 || cur_pos.x >= tile_num.x) && (cur_pos.y < 0 || cur_pos.y >= tile_num.y)`). -/
def bothOutB (tn : Int × Int) (p : Int × Int) : Bool :=
  (decide (p.1 < 0) || decide (tn.1 ≤ p.1)) && (decide (p.2 < 0) || decide (tn.2 ≤ p.2))

/-- A pushed render task: `rt.taskId`, `rt.ori`, `rt.size`
(scene/sampler/camera pointers and the pixel-sample buffer carry no
information relevant to the verified properties). -/
structure RenderTask where
  taskId : Nat
  ori : Int × Int
  size : Int × Int
deriving Repr, DecidableEq

/-- Task constructed at grid cell `p` (lines 204-208):
`ori = cur_pos * tilesize` and
`size = (tilesize < dim - ori) ? tilesize : dim - ori` per axis. -/
def mkTask (W H T : Nat) (tid : Nat) (p : Int × Int) : RenderTask :=
  let ox : Int := p.1 * T
  let oy : Int := p.2 * T
  { taskId := tid
    ori := (ox, oy)
    size := ((if (T : Int) < (W : Int) - ox then (T : Int) else (W : Int) - ox),
             (if (T : Int) < (H : Int) - oy then (T : Int) else (H : Int) - oy)) }

/-- Fuel-bounded run of the emission loop.  Returns `none` only when the
fuel is exhausted before the termination condition fires (we prove below
that the fuel chosen in `pushRenderTask` always suffices). -/
def pushLoop (W H T : Nat) (tn : Int × Int) :
    Nat → SpiralState → Nat → List RenderTask → Option (List RenderTask)
  | 0, _, _, _ => none
  | fuel + 1, s, tid, acc =>
    let tid' := if inGridB tn s.pos then tid + 1 else tid
    let acc' := if inGridB tn s.pos then acc ++ [mkTask W H T tid s.pos] else acc
    let s' := turnMove s
    if bothOutB tn s'.pos then some acc'
    else pushLoop W H T tn fuel s' tid' acc'

/-- `tile_num` per axis: the exact ceiling `⌈dim / T⌉`.  This embeds
`(int)ceil(dim / (float)tilesize)`; for every dimension below `2^24`
(far beyond any image size the renderer handles) the single-precision
quotient has the same ceiling as the exact one. -/
def tileNum (dim T : Nat) : Nat := (dim + T - 1) / T

/-- Fuel that dominates the index at which the loop terminates
(established in `pushRenderTask_eq` below). -/
def spiralFuel (tx ty : Nat) : Nat := (tx + ty + 2) * (tx + ty + 2)

/-- Embedding of the counting loop
`for (i = 0; i < dim; i += tilesize) ++count` used for `m_totalTask`. -/
def forCount (T : Nat) (hT : 0 < T) (dim i : Nat) : Nat :=
  if _h : i < dim then forCount T hT dim (i + T) + 1 else 0
termination_by dim - i
decreasing_by omega

/-- `m_totalTask` (lines 179-182): the double loop over rows and columns;
the inner loop contributes the same count for every row, so the double
loop is the product of the two single-axis counts. -/
def totalTask (W H T : Nat) (hT : 0 < T) : Nat :=
  forCount T hT H 0 * forCount T hT W 0

/-- The full `_pushRenderTask` emission sequence for image `W × H` and
tile edge `T`: tile grid `tile_num = (⌈W/T⌉, ⌈H/T⌉)`, start at
`tile_num / 2`, spiral outward, emit in-grid cells in order. -/
def pushRenderTask (W H T : Nat) : Option (List RenderTask) :=
  let tn : Int × Int := ((tileNum W T : Int), (tileNum H T : Int))
  let c : Int × Int := (tn.1 / 2, tn.2 / 2)
  pushLoop W H T tn (spiralFuel (tileNum W T) (tileNum H T)) (initState c) 0 []

/-! ## Closed form of the spiral walk

The loop above never consults the grid when updating
`(cur_pos, cur_dir, cur_len, cur_dir_len)`, so the walk itself is a fixed
square spiral: straight runs of lengths `1,1,2,2,3,3,...` in direction
order up, left, down, right.  We characterise the state after any number
of moves. -/

/-- Length of the `s`-th straight run of the spiral (`1,1,2,2,3,3,...`). -/
def segLen (s : Nat) : Nat := s / 2 + 1

/-- Total number of moves contained in runs `0 .. s-1`. -/
def cumLen : Nat → Nat
  | 0 => 0
  | s + 1 => cumLen s + segLen s

/-- Position (relative to the start cell) after completing run `s`. -/
def segEnd (s : Nat) : Int × Int :=
  let m : Int := (s / 4 : Nat)
  if s % 4 = 0 then (m, -(m + 1))
  else if s % 4 = 1 then (-(m + 1), -(m + 1))
  else if s % 4 = 2 then (-(m + 1), m + 1)
  else (m + 1, m + 1)

/-- Position (relative to the start cell) at the start of run `s`. -/
def segStart : Nat → Int × Int
  | 0 => (0, 0)
  | s + 1 => segEnd s

theorem stateAt_zero (c : Int × Int) : stateAt c 0 = initState c := rfl

theorem stateAt_succ (c : Int × Int) (n : Nat) :
    stateAt c (n + 1) = turnMove (stateAt c n) :=
  Function.iterate_succ_apply' turnMove n (initState c)

theorem turnMove_noTurn (s : SpiralState) (h : s.len < s.dirLen) :
    turnMove s = ⟨(s.pos.1 + (dirVec s.dir).1, s.pos.2 + (dirVec s.dir).2),
      s.dir, s.len + 1, s.dirLen⟩ := by
  simp [turnMove, Nat.not_le.mpr h]

theorem turnMove_turn (s : SpiralState) (h : s.dirLen ≤ s.len) :
    turnMove s = ⟨(s.pos.1 + (dirVec ((s.dir + 1) % 4)).1,
        s.pos.2 + (dirVec ((s.dir + 1) % 4)).2),
      (s.dir + 1) % 4, 1, s.dirLen + (1 - ((s.dir + 1) % 4) % 2)⟩ := by
  simp [turnMove, h]

theorem segStart_add (s : Nat) :
    ((segStart s).1 + (segLen s : Int) * (dirVec (s % 4)).1,
     (segStart s).2 + (segLen s : Int) * (dirVec (s % 4)).2) = segEnd s := by
  have h4 : s % 4 = 0 ∨ s % 4 = 1 ∨ s % 4 = 2 ∨ s % 4 = 3 := by omega
  rcases h4 with h | h | h | h
  · rcases Nat.eq_zero_or_pos s with hs | hs
    · subst hs; simp [segStart, segLen, segEnd, dirVec]
    · obtain ⟨t, rfl⟩ : ∃ t, s = t + 1 := ⟨s - 1, by omega⟩
      have ht4 : t % 4 = 3 := by omega
      have hl : segLen (t + 1) = 2 * ((t + 1) / 4) + 1 := by
        simp only [segLen]; omega
      simp [segStart, segEnd, ht4, h, hl, dirVec, Prod.ext_iff]
      omega
  · obtain ⟨t, rfl⟩ : ∃ t, s = t + 1 := ⟨s - 1, by omega⟩
    have ht4 : t % 4 = 0 := by omega
    have hl : segLen (t + 1) = 2 * ((t + 1) / 4) + 1 := by
      simp only [segLen]; omega
    simp [segStart, segEnd, ht4, h, hl, dirVec, Prod.ext_iff]
    omega
  · obtain ⟨t, rfl⟩ : ∃ t, s = t + 1 := ⟨s - 1, by omega⟩
    have ht4 : t % 4 = 1 := by omega
    have hl : segLen (t + 1) = 2 * ((t + 1) / 4) + 2 := by
      simp only [segLen]; omega
    simp [segStart, segEnd, ht4, h, hl, dirVec, Prod.ext_iff]
    omega
  · obtain ⟨t, rfl⟩ : ∃ t, s = t + 1 := ⟨s - 1, by omega⟩
    have ht4 : t % 4 = 2 := by omega
    have hl : segLen (t + 1) = 2 * ((t + 1) / 4) + 2 := by
      simp only [segLen]; omega
    simp [segStart, segEnd, ht4, h, hl, dirVec, Prod.ext_iff]
    omega

/-- Characterisation of the loop state during run `s`: after the `j`-th
move of run `s` (`1 ≤ j ≤ segLen s`) the walk sits `j` cells along run
`s` from the run's start, the direction index is `s % 4`, `cur_len = j`
and `cur_dir_len = segLen s`. -/
theorem stateAt_char (c : Int × Int) :
    ∀ s j : Nat, 1 ≤ j → j ≤ segLen s →
      stateAt c (cumLen s + j) =
        ⟨(c.1 + (segStart s).1 + (j : Int) * (dirVec (s % 4)).1,
          c.2 + (segStart s).2 + (j : Int) * (dirVec (s % 4)).2),
         s % 4, j, segLen s⟩ := by
  intro s
  induction s with
  | zero =>
    intro j h1 h2
    have hj : j = 1 := by simp [segLen] at h2; omega
    subst hj
    have h0 : cumLen 0 + 1 = 1 := rfl
    rw [h0, stateAt_succ, stateAt_zero]
    simp [turnMove, initState, segStart, segLen, dirVec]
  | succ s ih =>
    intro j
    induction j with
    | zero => intro h1; exact absurd h1 (by omega)
    | succ j ihj =>
      intro h1 h2
      rcases Nat.eq_zero_or_pos j with hj | hj
      · subst hj
        have hs1 : (1 : Nat) ≤ segLen s := by simp [segLen]
        have hmain := ih (segLen s) hs1 le_rfl
        have hcl : cumLen (s + 1) + 1 = (cumLen s + segLen s) + 1 := by
          simp [cumLen]
        rw [hcl, stateAt_succ, hmain, turnMove_turn _ le_rfl]
        have hd : (s % 4 + 1) % 4 = (s + 1) % 4 := by omega
        have hE := segStart_add s
        rw [Prod.ext_iff] at hE
        obtain ⟨hE1, hE2⟩ := hE
        have hSS : segStart (s + 1) = segEnd s := rfl
        have hdl : segLen s + (1 - ((s + 1) % 4) % 2) = segLen (s + 1) := by
          simp only [segLen]; omega
        simp only [SpiralState.mk.injEq, Prod.mk.injEq, hd, hSS, hdl]
        refine ⟨⟨?_, ?_⟩, trivial, trivial, trivial⟩
        · rw [← hE1]; push_cast; ring
        · rw [← hE2]; push_cast; ring
      · have hj2 : j ≤ segLen (s + 1) := by omega
        have hmain := ihj hj hj2
        have hcl : cumLen (s + 1) + (j + 1) = (cumLen (s + 1) + j) + 1 := by
          omega
        have hlt : j < segLen (s + 1) := by omega
        rw [hcl, stateAt_succ, hmain, turnMove_noTurn _ hlt]
        simp only [SpiralState.mk.injEq, Prod.mk.injEq]
        refine ⟨⟨?_, ?_⟩, trivial, trivial, trivial⟩
        · push_cast; ring
        · push_cast; ring

/-! ## Ring decomposition

Ring `r ≥ 1` of the spiral (all cells at Chebyshev distance `r` from the
start) is traversed by the end of run `4r-4` (entry corner), run `4r-3`
(top row, right to left), run `4r-2` (left column, top to bottom), run
`4r-1` (bottom row, left to right) and the first `2r` moves of run `4r`
(right column, bottom to top).  `relIdx` returns the unique step index at
which a given relative cell is visited. -/

/-- Chebyshev distance of a relative cell from the spiral start. -/
def cheb (p : Int × Int) : Nat := max p.1.natAbs p.2.natAbs

/-- The step index at which the walk visits relative cell `p`. -/
def relIdx (p : Int × Int) : Nat :=
  if cheb p = 0 then 0
  else if p.2 = -(cheb p : Int) ∧ p.1 < (cheb p : Int) then
    cumLen (4 * cheb p - 3) + ((cheb p : Int) - 1 - p.1).toNat
  else if p.1 = -(cheb p : Int) then
    cumLen (4 * cheb p - 2) + ((cheb p : Int) + p.2).toNat
  else if p.2 = (cheb p : Int) then
    cumLen (4 * cheb p - 1) + ((cheb p : Int) + p.1).toNat
  else
    cumLen (4 * cheb p) + ((cheb p : Int) - p.2).toNat

theorem segStart_top (r : Nat) (hr : 1 ≤ r) :
    segStart (4 * r - 3) = ((r : Int) - 1, -(r : Int)) := by
  obtain ⟨t, rfl⟩ : ∃ t, r = t + 1 := ⟨r - 1, by omega⟩
  have h1 : 4 * (t + 1) - 3 = (4 * t) + 1 := by omega
  have h2 : (4 * t) % 4 = 0 := by omega
  have h3 : (4 * t) / 4 = t := by omega
  rw [h1]
  show segEnd (4 * t) = _
  simp [segEnd, h2, h3, Prod.ext_iff]

theorem segStart_left (r : Nat) (hr : 1 ≤ r) :
    segStart (4 * r - 2) = (-(r : Int), -(r : Int)) := by
  obtain ⟨t, rfl⟩ : ∃ t, r = t + 1 := ⟨r - 1, by omega⟩
  have h1 : 4 * (t + 1) - 2 = (4 * t + 1) + 1 := by omega
  have h2 : (4 * t + 1) % 4 = 1 := by omega
  have h3 : (4 * t + 1) / 4 = t := by omega
  rw [h1]
  show segEnd (4 * t + 1) = _
  simp [segEnd, h2, h3, Prod.ext_iff]

theorem segStart_bottom (r : Nat) (hr : 1 ≤ r) :
    segStart (4 * r - 1) = (-(r : Int), (r : Int)) := by
  obtain ⟨t, rfl⟩ : ∃ t, r = t + 1 := ⟨r - 1, by omega⟩
  have h1 : 4 * (t + 1) - 1 = (4 * t + 2) + 1 := by omega
  have h2 : (4 * t + 2) % 4 = 2 := by omega
  have h3 : (4 * t + 2) / 4 = t := by omega
  rw [h1]
  show segEnd (4 * t + 2) = _
  simp [segEnd, h2, h3, Prod.ext_iff]

theorem segStart_right (r : Nat) (hr : 1 ≤ r) :
    segStart (4 * r) = ((r : Int), (r : Int)) := by
  obtain ⟨t, rfl⟩ : ∃ t, r = t + 1 := ⟨r - 1, by omega⟩
  have h1 : 4 * (t + 1) = (4 * t + 3) + 1 := by omega
  have h2 : (4 * t + 3) % 4 = 3 := by omega
  have h3 : (4 * t + 3) / 4 = t := by omega
  rw [h1]
  show segEnd (4 * t + 3) = _
  simp [segEnd, h2, h3, Prod.ext_iff]

/-- The walk visits every relative cell `(u, v)`, at step `relIdx (u, v)`. -/
theorem posAt_relIdx (c : Int × Int) (u v : Int) :
    posAt c (relIdx (u, v)) = (c.1 + u, c.2 + v) := by
  by_cases h0 : cheb (u, v) = 0
  · have hu : u = 0 ∧ v = 0 := by
      simp [cheb] at h0; omega
    obtain ⟨rfl, rfl⟩ := hu
    simp [relIdx, cheb, posAt, stateAt, initState]
  · have hub : u.natAbs ≤ cheb (u, v) := le_max_left _ _
    have hvb : v.natAbs ≤ cheb (u, v) := le_max_right _ _
    have hmax : u.natAbs = cheb (u, v) ∨ v.natAbs = cheb (u, v) := by
      simp only [cheb]; omega
    have hr1 : 1 ≤ cheb (u, v) := by omega
    set r := cheb (u, v) with hrdef
    by_cases hB1 : v = -(r : Int) ∧ u < (r : Int)
    · simp only [relIdx]
      rw [if_neg h0, if_pos (show (u, v).2 = -((cheb (u, v) : Nat) : Int) ∧
        (u, v).1 < ((cheb (u, v) : Nat) : Int) from hB1)]
      by_cases hEnt : u = (r : Int) - 1
      · have hz : (((cheb (u, v) : Nat) : Int) - 1 - (u, v).1).toNat = 0 := by
          simp only [← hrdef]; omega
        rw [hz, Nat.add_zero]
        have h43 : 4 * r - 3 = (4 * r - 4) + 1 := by omega
        have hcl : cumLen (4 * r - 3) = cumLen (4 * r - 4) + segLen (4 * r - 4) := by
          rw [h43]; rfl
        have hsl1 : 1 ≤ segLen (4 * r - 4) := by simp only [segLen]; omega
        rw [show 4 * cheb (u, v) - 3 = 4 * r - 3 from rfl, hcl]
        have hchar := stateAt_char c (4 * r - 4) (segLen (4 * r - 4)) hsl1 le_rfl
        simp only [posAt]
        rw [hchar]
        have hm0 : (4 * r - 4) % 4 = 0 := by omega
        have hE := segStart_add (4 * r - 4)
        have hEv : segEnd (4 * r - 4) = ((r : Int) - 1, -(r : Int)) := by
          have hss : segStart ((4 * r - 4) + 1) = segEnd (4 * r - 4) := rfl
          rw [← hss, ← h43, segStart_top r hr1]
        rw [hEv, Prod.ext_iff] at hE
        obtain ⟨hE1, hE2⟩ := hE
        simp only [hm0, dirVec] at hE1 hE2
        simp only [hm0, dirVec, Prod.mk.injEq]
        obtain ⟨hv, _⟩ := hB1
        constructor
        · omega
        · omega
      · have hm : (4 * r - 3) % 4 = 1 := by omega
        have hsl : segLen (4 * r - 3) = 2 * r - 1 := by simp only [segLen]; omega
        have hj1 : 1 ≤ (((cheb (u, v) : Nat) : Int) - 1 - (u, v).1).toNat := by
          simp only [← hrdef]; omega
        have hj2 : (((cheb (u, v) : Nat) : Int) - 1 - (u, v).1).toNat ≤
            segLen (4 * r - 3) := by
          simp only [← hrdef]; omega
        have hchar := stateAt_char c (4 * r - 3)
          ((((cheb (u, v) : Nat) : Int) - 1 - (u, v).1).toNat) hj1 hj2
        simp only [posAt]
        rw [show 4 * cheb (u, v) - 3 = 4 * r - 3 from rfl, hchar]
        simp only [hm, dirVec, segStart_top r hr1, Prod.mk.injEq]
        obtain ⟨hv, hu2⟩ := hB1
        constructor
        · omega
        · omega
    · by_cases hB2 : u = -(r : Int)
      · simp only [relIdx]
        rw [if_neg h0, if_neg (show ¬((u, v).2 = -((cheb (u, v) : Nat) : Int) ∧
          (u, v).1 < ((cheb (u, v) : Nat) : Int)) from hB1),
          if_pos (show (u, v).1 = -((cheb (u, v) : Nat) : Int) from hB2)]
        have hv : v ≠ -(r : Int) := by
          intro hc; exact hB1 ⟨hc, by omega⟩
        have hm : (4 * r - 2) % 4 = 2 := by omega
        have hsl : segLen (4 * r - 2) = 2 * r := by simp only [segLen]; omega
        have hj1 : 1 ≤ (((cheb (u, v) : Nat) : Int) + (u, v).2).toNat := by
          simp only [← hrdef]; omega
        have hj2 : (((cheb (u, v) : Nat) : Int) + (u, v).2).toNat ≤
            segLen (4 * r - 2) := by
          simp only [← hrdef]; omega
        have hchar := stateAt_char c (4 * r - 2)
          ((((cheb (u, v) : Nat) : Int) + (u, v).2).toNat) hj1 hj2
        simp only [posAt]
        rw [show 4 * cheb (u, v) - 2 = 4 * r - 2 from rfl, hchar]
        simp only [hm, dirVec, segStart_left r hr1, Prod.mk.injEq]
        constructor
        · omega
        · omega
      · by_cases hB3 : v = (r : Int)
        · simp only [relIdx]
          rw [if_neg h0, if_neg (show ¬((u, v).2 = -((cheb (u, v) : Nat) : Int) ∧
            (u, v).1 < ((cheb (u, v) : Nat) : Int)) from hB1),
            if_neg (show ¬((u, v).1 = -((cheb (u, v) : Nat) : Int)) from hB2),
            if_pos (show (u, v).2 = ((cheb (u, v) : Nat) : Int) from hB3)]
          have hm : (4 * r - 1) % 4 = 3 := by omega
          have hsl : segLen (4 * r - 1) = 2 * r := by simp only [segLen]; omega
          have hj1 : 1 ≤ (((cheb (u, v) : Nat) : Int) + (u, v).1).toNat := by
            simp only [← hrdef]; omega
          have hj2 : (((cheb (u, v) : Nat) : Int) + (u, v).1).toNat ≤
              segLen (4 * r - 1) := by
            simp only [← hrdef]; omega
          have hchar := stateAt_char c (4 * r - 1)
            ((((cheb (u, v) : Nat) : Int) + (u, v).1).toNat) hj1 hj2
          simp only [posAt]
          rw [show 4 * cheb (u, v) - 1 = 4 * r - 1 from rfl, hchar]
          simp only [hm, dirVec, segStart_bottom r hr1, Prod.mk.injEq]
          constructor
          · omega
          · omega
        · simp only [relIdx]
          rw [if_neg h0, if_neg (show ¬((u, v).2 = -((cheb (u, v) : Nat) : Int) ∧
            (u, v).1 < ((cheb (u, v) : Nat) : Int)) from hB1),
            if_neg (show ¬((u, v).1 = -((cheb (u, v) : Nat) : Int)) from hB2),
            if_neg (show ¬((u, v).2 = ((cheb (u, v) : Nat) : Int)) from hB3)]
          have hu4 : u = (r : Int) := by omega
          have hm : (4 * r) % 4 = 0 := by omega
          have hsl : segLen (4 * r) = 2 * r + 1 := by simp only [segLen]; omega
          have hj1 : 1 ≤ (((cheb (u, v) : Nat) : Int) - (u, v).2).toNat := by
            simp only [← hrdef]; omega
          have hj2 : (((cheb (u, v) : Nat) : Int) - (u, v).2).toNat ≤
              segLen (4 * r) := by
            simp only [← hrdef]; omega
          have hchar := stateAt_char c (4 * r)
            ((((cheb (u, v) : Nat) : Int) - (u, v).2).toNat) hj1 hj2
          simp only [posAt]
          rw [show 4 * cheb (u, v) = 4 * r from rfl, hchar]
          simp only [hm, dirVec, segStart_right r hr1, Prod.mk.injEq]
          constructor
          · omega
          · omega

/-- Every step index `n ≥ 1` lies in a unique run: `n = cumLen s + j`
with `1 ≤ j ≤ segLen s`. -/
theorem exists_seg (n : Nat) (hn : 1 ≤ n) :
    ∃ s j, 1 ≤ j ∧ j ≤ segLen s ∧ n = cumLen s + j := by
  induction n with
  | zero => omega
  | succ n ih =>
    rcases Nat.eq_zero_or_pos n with h | h
    · subst h
      exact ⟨0, 1, le_rfl, by simp [segLen], by simp [cumLen]⟩
    · obtain ⟨s, j, hj1, hj2, rfl⟩ := ih h
      rcases eq_or_lt_of_le hj2 with hEq | hLt
      · refine ⟨s + 1, 1, le_rfl, by simp [segLen], ?_⟩
        have : cumLen (s + 1) = cumLen s + segLen s := rfl
        omega
      · exact ⟨s, j + 1, by omega, by omega, by omega⟩

/-- The walk visits each relative cell at most once: step `n` sits at the
cell whose `relIdx` is `n`. -/
theorem relIdx_posAt (c : Int × Int) (n : Nat) :
    relIdx ((posAt c n).1 - c.1, (posAt c n).2 - c.2) = n := by
  rcases Nat.eq_zero_or_pos n with hn | hn
  · subst hn
    simp [posAt, stateAt, initState, relIdx, cheb]
  · obtain ⟨s, j, hj1, hj2, rfl⟩ := exists_seg n hn
    have hchar := stateAt_char c s j hj1 hj2
    have h4 : s % 4 = 0 ∨ s % 4 = 1 ∨ s % 4 = 2 ∨ s % 4 = 3 := by omega
    rcases h4 with h | h | h | h
    · -- up run `s = 4m`: cells `(m, m - j)`
      obtain ⟨m, rfl⟩ : ∃ m, s = 4 * m := ⟨s / 4, by omega⟩
      have hsl : segLen (4 * m) = 2 * m + 1 := by simp only [segLen]; omega
      have hst : segStart (4 * m) = ((m : Int), (m : Int)) := by
        rcases Nat.eq_zero_or_pos m with h0 | h0
        · subst h0; simp [segStart]
        · exact segStart_right m h0
      have hpos : posAt c (cumLen (4 * m) + j) =
          (c.1 + ((m : Int)), c.2 + ((m : Int) - (j : Int))) := by
        simp only [posAt]
        rw [hchar]
        simp only [hst, h, dirVec, Prod.mk.injEq]
        constructor
        · ring
        · ring
      rw [hpos]
      simp only [add_sub_cancel_left]
      rcases eq_or_lt_of_le hj2 with hEq | hLt
      · -- last move of the run: enters ring `m + 1` at its corner
        have hch : cheb ((m : Int), (m : Int) - (j : Int)) = m + 1 := by
          simp only [cheb]; omega
        simp only [relIdx, hch]
        rw [if_neg (by omega), if_pos (by
          refine ⟨?_, ?_⟩ <;> push_cast <;> omega)]
        rw [show 4 * (m + 1) - 3 = 4 * m + 1 from by omega]
        have hcl : cumLen (4 * m + 1) = cumLen (4 * m) + segLen (4 * m) := rfl
        push_cast
        omega
      · -- interior of the run: right column of ring `m`
        have hm1 : 1 ≤ m := by omega
        have hch : cheb ((m : Int), (m : Int) - (j : Int)) = m := by
          simp only [cheb]; omega
        simp only [relIdx, hch]
        rw [if_neg (by omega), if_neg (by
            intro hc
            obtain ⟨hc1, hc2⟩ := hc
            omega),
          if_neg (by intro hc; omega),
          if_neg (by intro hc; omega)]
        omega
    · -- left run `s = 4m + 1`: cells `(m - j, -(m + 1))`
      obtain ⟨m, rfl⟩ : ∃ m, s = 4 * m + 1 := ⟨s / 4, by omega⟩
      have hsl : segLen (4 * m + 1) = 2 * m + 1 := by simp only [segLen]; omega
      have hst : segStart (4 * m + 1) = ((m : Int), -((m : Int) + 1)) := by
        rw [show 4 * m + 1 = 4 * (m + 1) - 3 from by omega,
          segStart_top (m + 1) (by omega)]
        rw [Prod.ext_iff]
        constructor <;> push_cast <;> ring
      have hpos : posAt c (cumLen (4 * m + 1) + j) =
          (c.1 + ((m : Int) - (j : Int)), c.2 + (-((m : Int) + 1))) := by
        simp only [posAt]
        rw [hchar]
        simp only [hst, h, dirVec, Prod.mk.injEq]
        constructor
        · ring
        · ring
      rw [hpos]
      simp only [add_sub_cancel_left]
      have hch : cheb ((m : Int) - (j : Int), -((m : Int) + 1)) = m + 1 := by
        simp only [cheb]; omega
      simp only [relIdx, hch]
      rw [if_neg (by omega), if_pos (by
        refine ⟨?_, ?_⟩ <;> push_cast <;> omega)]
      rw [show 4 * (m + 1) - 3 = 4 * m + 1 from by omega]
      push_cast
      omega
    · -- down run `s = 4m + 2`: cells `(-(m + 1), -(m + 1) + j)`
      obtain ⟨m, rfl⟩ : ∃ m, s = 4 * m + 2 := ⟨s / 4, by omega⟩
      have hsl : segLen (4 * m + 2) = 2 * m + 2 := by simp only [segLen]; omega
      have hst : segStart (4 * m + 2) = (-((m : Int) + 1), -((m : Int) + 1)) := by
        rw [show 4 * m + 2 = 4 * (m + 1) - 2 from by omega,
          segStart_left (m + 1) (by omega)]
        rw [Prod.ext_iff]
        constructor <;> push_cast <;> ring
      have hpos : posAt c (cumLen (4 * m + 2) + j) =
          (c.1 + (-((m : Int) + 1)), c.2 + (-((m : Int) + 1) + (j : Int))) := by
        simp only [posAt]
        rw [hchar]
        simp only [hst, h, dirVec, Prod.mk.injEq]
        constructor
        · ring
        · ring
      rw [hpos]
      simp only [add_sub_cancel_left]
      have hch : cheb (-((m : Int) + 1), -((m : Int) + 1) + (j : Int)) = m + 1 := by
        simp only [cheb]; omega
      simp only [relIdx, hch]
      rw [if_neg (by omega), if_neg (by
          intro hc
          obtain ⟨hc1, hc2⟩ := hc
          push_cast at hc1 hc2
          omega),
        if_pos (by push_cast; ring)]
      rw [show 4 * (m + 1) - 2 = 4 * m + 2 from by omega]
      push_cast
      omega
    · -- right run `s = 4m + 3`: cells `(-(m + 1) + j, m + 1)`
      obtain ⟨m, rfl⟩ : ∃ m, s = 4 * m + 3 := ⟨s / 4, by omega⟩
      have hsl : segLen (4 * m + 3) = 2 * m + 2 := by simp only [segLen]; omega
      have hst : segStart (4 * m + 3) = (-((m : Int) + 1), (m : Int) + 1) := by
        rw [show 4 * m + 3 = 4 * (m + 1) - 1 from by omega,
          segStart_bottom (m + 1) (by omega)]
        rw [Prod.ext_iff]
        constructor <;> push_cast <;> ring
      have hpos : posAt c (cumLen (4 * m + 3) + j) =
          (c.1 + (-((m : Int) + 1) + (j : Int)), c.2 + ((m : Int) + 1)) := by
        simp only [posAt]
        rw [hchar]
        simp only [hst, h, dirVec, Prod.mk.injEq]
        constructor
        · ring
        · ring
      rw [hpos]
      simp only [add_sub_cancel_left]
      have hch : cheb (-((m : Int) + 1) + (j : Int), (m : Int) + 1) = m + 1 := by
        simp only [cheb]; omega
      simp only [relIdx, hch]
      rw [if_neg (by omega), if_neg (by
          intro hc
          obtain ⟨hc1, hc2⟩ := hc
          push_cast at hc1 hc2
          omega),
        if_neg (by
          intro hc
          push_cast at hc
          omega),
        if_pos (by push_cast; ring)]
      rw [show 4 * (m + 1) - 1 = 4 * m + 3 from by omega]
      push_cast
      omega

theorem cumLen_succ (s : Nat) : cumLen (s + 1) = cumLen s + segLen s := rfl

theorem cumLen_mono : Monotone cumLen :=
  monotone_nat_of_le_succ fun s => by rw [cumLen_succ]; omega

/-- `cumLen (2u) = u (u+1)`: quadratic closed form, used for the fuel
bound. -/
theorem cumLen_closed (u : Nat) : cumLen (2 * u) = u * (u + 1) := by
  induction u with
  | zero => rfl
  | succ u ih =>
    have h1 : 2 * (u + 1) = (2 * u + 1) + 1 := by omega
    have h2 : segLen (2 * u) = u + 1 := by simp only [segLen]; omega
    have h3 : segLen (2 * u + 1) = u + 1 := by simp only [segLen]; omega
    rw [h1, cumLen_succ, cumLen_succ, h2, h3, ih]
    ring

/-- The four `cumLen` increments across one ring of the spiral. -/
theorem cumLen_ring_chain (r : Nat) (hr : 1 ≤ r) :
    cumLen (4 * r - 2) = cumLen (4 * r - 3) + (2 * r - 1) ∧
    cumLen (4 * r - 1) = cumLen (4 * r - 2) + 2 * r ∧
    cumLen (4 * r) = cumLen (4 * r - 1) + 2 * r ∧
    cumLen (4 * r + 1) = cumLen (4 * r) + (2 * r + 1) := by
  refine ⟨?_, ?_, ?_, ?_⟩
  · have e := cumLen_succ (4 * r - 3)
    rw [show (4 * r - 3) + 1 = 4 * r - 2 from by omega] at e
    have hs : segLen (4 * r - 3) = 2 * r - 1 := by simp only [segLen]; omega
    omega
  · have e := cumLen_succ (4 * r - 2)
    rw [show (4 * r - 2) + 1 = 4 * r - 1 from by omega] at e
    have hs : segLen (4 * r - 2) = 2 * r := by simp only [segLen]; omega
    omega
  · have e := cumLen_succ (4 * r - 1)
    rw [show (4 * r - 1) + 1 = 4 * r from by omega] at e
    have hs : segLen (4 * r - 1) = 2 * r := by simp only [segLen]; omega
    omega
  · have e := cumLen_succ (4 * r)
    have hs : segLen (4 * r) = 2 * r + 1 := by simp only [segLen]; omega
    omega

/-- Any cell is visited before the end of run `4r` where `r` is its ring. -/
theorem relIdx_lt_ringEnd (w z : Int) :
    relIdx (w, z) < cumLen (4 * cheb (w, z) + 1) := by
  have hcw : cheb (w, z) = max w.natAbs z.natAbs := rfl
  rw [relIdx]
  split_ifs with hA hB hC hD
  · rw [hA]; decide
  all_goals
    have hr1 : 1 ≤ cheb (w, z) := by omega
    obtain ⟨e1, e2, e3, e4⟩ := cumLen_ring_chain (cheb (w, z)) hr1
    omega

/-- A cell on ring `r ≥ 1` is visited no earlier than the entry into
ring `r`. -/
theorem ringStart_le_relIdx (w z : Int) (hr1 : 1 ≤ cheb (w, z)) :
    cumLen (4 * cheb (w, z) - 3) ≤ relIdx (w, z) := by
  have hcw : cheb (w, z) = max w.natAbs z.natAbs := rfl
  rw [relIdx]
  split_ifs with hA hB hC hD
  · omega
  all_goals
    obtain ⟨e1, e2, e3, e4⟩ := cumLen_ring_chain (cheb (w, z)) hr1
    omega

set_option maxHeartbeats 2000000 in
/-- Central ordering fact: with the start cell `(tx/2, ty/2)` of a
`tx × ty` tile grid, every in-grid cell is visited strictly before every
cell that is out of range on both axes.  Coordinates are relative to the
start cell. -/
theorem grid_before_out (tx ty cx cy : Nat) (hcx : cx = tx / 2)
    (hcy : cy = ty / 2) (htx : 1 ≤ tx) (hty : 1 ≤ ty) (u v p q : Int)
    (hg1 : -(cx : Int) ≤ u) (hg2 : u < (tx : Int) - cx)
    (hg3 : -(cy : Int) ≤ v) (hg4 : v < (ty : Int) - cy)
    (hb1 : p < -(cx : Int) ∨ (tx : Int) - cx ≤ p)
    (hb2 : q < -(cy : Int) ∨ (ty : Int) - cy ≤ q) :
    relIdx (u, v) < relIdx (p, q) := by
  have hcu : cheb (u, v) = max u.natAbs v.natAbs := rfl
  have hcp : cheb (p, q) = max p.natAbs q.natAbs := rfl
  have hle : cheb (u, v) ≤ cheb (p, q) := by omega
  rcases eq_or_lt_of_le hle with hEq | hLt
  · -- same ring: the out-cell's traversal phase is strictly later
    have hr1 : 1 ≤ cheb (p, q) := by omega
    obtain ⟨e1, e2, e3, e4⟩ := cumLen_ring_chain (cheb (p, q)) hr1
    have hu0 : -(cheb (p, q) : Int) ≤ u ∧ u ≤ (cheb (p, q) : Int) := by omega
    have hv0 : -(cheb (p, q) : Int) ≤ v ∧ v ≤ (cheb (p, q) : Int) := by omega
    have hp0 : -(cheb (p, q) : Int) ≤ p ∧ p ≤ (cheb (p, q) : Int) := by omega
    have hq0 : -(cheb (p, q) : Int) ≤ q ∧ q ≤ (cheb (p, q) : Int) := by omega
    have huv : u = (cheb (p, q) : Int) ∨ u = -(cheb (p, q) : Int) ∨
        v = (cheb (p, q) : Int) ∨ v = -(cheb (p, q) : Int) := by omega
    have hpq : p = (cheb (p, q) : Int) ∨ p = -(cheb (p, q) : Int) ∨
        q = (cheb (p, q) : Int) ∨ q = -(cheb (p, q) : Int) := by omega
    rw [relIdx, relIdx, hEq]
    rw [if_neg (show ¬(cheb (p, q) = 0) from by omega),
      if_neg (show ¬(cheb (p, q) = 0) from by omega)]
    clear hcu hcp hle hEq
    split_ifs <;> omega
  · -- strictly smaller ring: ring blocks are disjoint and ordered
    have h1 := relIdx_lt_ringEnd u v
    have h2 : 1 ≤ cheb (p, q) := by omega
    have h3 := ringStart_le_relIdx p q h2
    have h4 : cumLen (4 * cheb (u, v) + 1) ≤ cumLen (4 * cheb (p, q) - 3) :=
      cumLen_mono (by omega)
    omega

/-! ## Running the emission loop -/

/-- Cells emitted during loop iterations `k, k+1, ..., k+n-1`: the walk
positions in that index window that lie inside the tile grid. -/
def cellsIn (c tn : Int × Int) (k n : Nat) : List (Int × Int) :=
  ((List.range' k n).map (posAt c)).filter (inGridB tn)

/-- Tasks built from a cell list with consecutive ids starting at `tid`. -/
def numberTasks (W H T : Nat) : Nat → List (Int × Int) → List RenderTask
  | _, [] => []
  | tid, p :: ps => mkTask W H T tid p :: numberTasks W H T (tid + 1) ps

theorem numberTasks_append (W H T : Nat) (tid : Nat)
    (l1 l2 : List (Int × Int)) :
    numberTasks W H T tid (l1 ++ l2) =
      numberTasks W H T tid l1 ++ numberTasks W H T (tid + l1.length) l2 := by
  induction l1 generalizing tid with
  | nil => simp [numberTasks]
  | cons p ps ih =>
    have hlen : tid + (ps.length + 1) = (tid + 1) + ps.length := by omega
    simp only [List.cons_append, numberTasks, List.append_eq, ih,
      List.length_cons, hlen]

theorem cellsIn_zero (c tn : Int × Int) (k : Nat) : cellsIn c tn k 0 = [] := rfl

theorem cellsIn_cons (c tn : Int × Int) (k n : Nat) :
    cellsIn c tn k (n + 1) =
      (if inGridB tn (posAt c k) then [posAt c k] else []) ++
        cellsIn c tn (k + 1) n := by
  simp only [cellsIn, List.range'_succ, List.map_cons, List.filter_cons]
  split_ifs <;> simp

/-- Running the loop from step `k` with enough fuel reaches the first
termination index `N = Nat.find hex` and accumulates exactly the in-grid
cells of steps `k .. N-1`, numbered consecutively. -/
theorem pushLoop_run (W H T : Nat) (tn c : Int × Int)
    (hex : ∃ n, bothOutB tn (posAt c n) = true) :
    ∀ fuel k tid acc, k < Nat.find hex → Nat.find hex ≤ k + fuel →
      pushLoop W H T tn fuel (stateAt c k) tid acc =
        some (acc ++ numberTasks W H T tid
          (cellsIn c tn k (Nat.find hex - k))) := by
  intro fuel
  induction fuel with
  | zero => intro k tid acc h1 h2; omega
  | succ fuel ih =>
    intro k tid acc h1 h2
    have hs : turnMove (stateAt c k) = stateAt c (k + 1) := (stateAt_succ c k).symm
    have hsplit : Nat.find hex - k = (Nat.find hex - (k + 1)) + 1 := by omega
    rw [hsplit, cellsIn_cons]
    simp only [pushLoop, hs]
    by_cases hb : bothOutB tn (posAt c (k + 1)) = true
    · have hN : Nat.find hex = k + 1 := by
        have hle : Nat.find hex ≤ k + 1 := Nat.find_le hb
        omega
      rw [if_pos (by simpa [posAt] using hb)]
      rw [hN]
      simp only [Nat.sub_self, cellsIn_zero]
      by_cases hg : inGridB tn (posAt c k) = true
      · rw [if_pos (by simpa [posAt] using hg), if_pos hg]
        simp [numberTasks, posAt]
      · rw [if_neg (by simpa [posAt] using hg), if_neg hg]
        simp [numberTasks]
    · have hlt : k + 1 < Nat.find hex := by
        rcases eq_or_lt_of_le (show k + 1 ≤ Nat.find hex from h1) with hEq | hlt
        · exfalso
          have := Nat.find_spec hex
          rw [← hEq] at this
          exact hb this
        · exact hlt
      rw [if_neg (by simpa [posAt] using hb)]
      by_cases hg : inGridB tn (posAt c k) = true
      · rw [if_pos (by simpa [posAt] using hg), if_pos (by simpa [posAt] using hg)]
        rw [ih (k + 1) (tid + 1) (acc ++ [mkTask W H T tid (stateAt c k).pos])
          hlt (by omega)]
        rw [if_pos hg]
        simp [numberTasks_append, numberTasks, posAt]
      · rw [if_neg (by simpa [posAt] using hg), if_neg (by simpa [posAt] using hg)]
        rw [ih (k + 1) tid acc hlt (by omega)]
        rw [if_neg hg]
        simp

theorem inGridB_iff (tn p : Int × Int) :
    inGridB tn p = true ↔ 0 ≤ p.1 ∧ p.1 < tn.1 ∧ 0 ≤ p.2 ∧ p.2 < tn.2 := by
  simp [inGridB, and_assoc]

theorem bothOutB_iff (tn p : Int × Int) :
    bothOutB tn p = true ↔ (p.1 < 0 ∨ tn.1 ≤ p.1) ∧ (p.2 < 0 ∨ tn.2 ≤ p.2) := by
  simp [bothOutB]

theorem posAt_injective (c : Int × Int) : Function.Injective (posAt c) := by
  intro a b hab
  have ha := relIdx_posAt c a
  rw [hab] at ha
  rw [relIdx_posAt c b] at ha
  exact ha.symm

theorem cumLen_odd (u : Nat) : cumLen (2 * u + 1) = (u + 1) * (u + 1) := by
  have h := cumLen_succ (2 * u)
  have hs : segLen (2 * u) = u + 1 := by simp only [segLen]; omega
  rw [h, hs, cumLen_closed]
  ring

/-- Ceiling property of `tileNum`. -/
theorem tileNum_spec (dim T : Nat) (hd : 1 ≤ dim) (hT : 1 ≤ T) :
    dim ≤ tileNum dim T * T ∧ (tileNum dim T - 1) * T < dim := by
  have hdm := Nat.div_add_mod (dim + T - 1) T
  have hlt : (dim + T - 1) % T < T := Nat.mod_lt _ (by omega)
  have hsub : (tileNum dim T - 1) * T = tileNum dim T * T - T := by
    rw [Nat.sub_mul, Nat.one_mul]
  rw [hsub]
  simp only [tileNum]
  rw [Nat.mul_comm] at hdm
  generalize hgen : (dim + T - 1) / T * T = x at hdm ⊢
  generalize hrem : (dim + T - 1) % T = r at hdm hlt
  clear hgen hrem hsub
  constructor
  · omega
  · omega

/-- The tile grid `tile_num` of `_pushRenderTask` and its start cell
`tile_num / 2`. -/
def gridTN (W H T : Nat) : Int × Int :=
  ((tileNum W T : Int), (tileNum H T : Int))

def gridC (W H T : Nat) : Int × Int :=
  ((tileNum W T : Int) / 2, (tileNum H T : Int) / 2)

theorem gridC_cast (W H T : Nat) :
    gridC W H T = (((tileNum W T / 2 : Nat) : Int), ((tileNum H T / 2 : Nat) : Int)) := by
  simp only [gridC, Prod.mk.injEq]
  constructor
  · exact (Int.ofNat_div _ _).symm
  · exact (Int.ofNat_div _ _).symm

/-- The spiral walk does terminate: some step lands out of range on both
axes. -/
theorem bothOut_exists (W H T : Nat) :
    ∃ n, bothOutB (gridTN W H T) (posAt (gridC W H T) n) = true := by
  set M : Nat := max (tileNum W T / 2) (tileNum H T / 2) with hM
  refine ⟨relIdx (-((M : Int) + 1), -((M : Int) + 1)), ?_⟩
  rw [posAt_relIdx, bothOutB_iff, gridC_cast]
  constructor
  · left; simp only [gridTN]; omega
  · left; simp only [gridTN]; omega

/-- The termination step index is below the fuel supplied by
`pushRenderTask`. -/
theorem termIdx_lt_fuel (W H T : Nat) (hW : 1 ≤ W) (hH : 1 ≤ H) (hT : 1 ≤ T) :
    Nat.find (bothOut_exists W H T) < spiralFuel (tileNum W T) (tileNum H T) := by
  set M : Nat := max (tileNum W T / 2) (tileNum H T / 2) with hM
  have htx : 1 ≤ tileNum W T := by
    simp only [tileNum]
    rw [Nat.one_le_div_iff (by omega)]
    omega
  have hty : 1 ≤ tileNum H T := by
    simp only [tileNum]
    rw [Nat.one_le_div_iff (by omega)]
    omega
  have h1 : Nat.find (bothOut_exists W H T) ≤
      relIdx (-((M : Int) + 1), -((M : Int) + 1)) := by
    apply Nat.find_le
    rw [posAt_relIdx, bothOutB_iff, gridC_cast]
    constructor
    · left; simp only [gridTN]; omega
    · left; simp only [gridTN]; omega
  have hch : cheb (-((M : Int) + 1), -((M : Int) + 1)) = M + 1 := by
    simp only [cheb]; omega
  have h2 := relIdx_lt_ringEnd (-((M : Int) + 1)) (-((M : Int) + 1))
  rw [hch] at h2
  have h3 : 4 * (M + 1) + 1 = 2 * (2 * M + 2) + 1 := by omega
  have h4 : cumLen (4 * (M + 1) + 1) = (2 * M + 3) * (2 * M + 3) := by
    rw [h3, cumLen_odd]
  have h5 : 2 * M + 3 ≤ tileNum W T + tileNum H T + 2 := by omega
  have h6 : (2 * M + 3) * (2 * M + 3) ≤
      (tileNum W T + tileNum H T + 2) * (tileNum W T + tileNum H T + 2) :=
    Nat.mul_le_mul h5 h5
  simp only [spiralFuel]
  omega

/-- Master run theorem: `_pushRenderTask` terminates and emits exactly the
in-grid walk cells of steps `0 .. N-1` (`N` the first both-out step),
numbered consecutively from 0. -/
theorem pushRenderTask_run (W H T : Nat) (hW : 1 ≤ W) (hH : 1 ≤ H)
    (hT : 1 ≤ T) :
    pushRenderTask W H T =
      some (numberTasks W H T 0 (cellsIn (gridC W H T) (gridTN W H T) 0
        (Nat.find (bothOut_exists W H T)))) := by
  have htx : 1 ≤ tileNum W T := by
    simp only [tileNum]
    rw [Nat.one_le_div_iff (by omega)]
    omega
  have hty : 1 ≤ tileNum H T := by
    simp only [tileNum]
    rw [Nat.one_le_div_iff (by omega)]
    omega
  have h0 : ¬ (bothOutB (gridTN W H T) (posAt (gridC W H T) 0) = true) := by
    rw [bothOutB_iff]
    have : posAt (gridC W H T) 0 = gridC W H T := rfl
    rw [this, gridC_cast]
    simp only [gridTN]
    intro hc
    omega
  have hpos : 0 < Nat.find (bothOut_exists W H T) := by
    rcases Nat.eq_zero_or_pos (Nat.find (bothOut_exists W H T)) with h | h
    · exact absurd (h ▸ Nat.find_spec (bothOut_exists W H T)) h0
    · exact h
  have hrun := pushLoop_run W H T (gridTN W H T) (gridC W H T)
    (bothOut_exists W H T) (spiralFuel (tileNum W T) (tileNum H T)) 0 0 []
    hpos (by have := termIdx_lt_fuel W H T hW hH hT; omega)
  have hstate : stateAt (gridC W H T) 0 = initState (gridC W H T) := rfl
  rw [hstate] at hrun
  simp only [Nat.sub_zero, List.nil_append] at hrun
  simpa [pushRenderTask, gridTN, gridC] using hrun

/-- The emitted cell list has no duplicates and contains exactly the
cells of the tile grid. -/
theorem emitted_cells_spec (W H T : Nat) (hW : 1 ≤ W) (hH : 1 ≤ H)
    (hT : 1 ≤ T) :
    (cellsIn (gridC W H T) (gridTN W H T) 0
      (Nat.find (bothOut_exists W H T))).Nodup ∧
    ∀ p : Int × Int,
      p ∈ cellsIn (gridC W H T) (gridTN W H T) 0
          (Nat.find (bothOut_exists W H T)) ↔
        0 ≤ p.1 ∧ p.1 < (tileNum W T : Int) ∧
        0 ≤ p.2 ∧ p.2 < (tileNum H T : Int) := by
  constructor
  · apply List.Nodup.filter
    apply List.Nodup.map (posAt_injective (gridC W H T))
    exact List.nodup_range' 0 _
  · intro p
    constructor
    · intro hp
      have hg := List.of_mem_filter hp
      rw [inGridB_iff] at hg
      simpa [gridTN] using hg
    · intro hp
      have hc1 : (gridC W H T).1 = ((tileNum W T / 2 : Nat) : Int) := by
        rw [gridC_cast]
      have hc2 : (gridC W H T).2 = ((tileNum H T / 2 : Nat) : Int) := by
        rw [gridC_cast]
      have hppos : posAt (gridC W H T)
          (relIdx (p.1 - (gridC W H T).1, p.2 - (gridC W H T).2)) = p := by
        rw [posAt_relIdx]
        simp
      have hbout := Nat.find_spec (bothOut_exists W H T)
      rw [bothOutB_iff] at hbout
      simp only [gridTN] at hbout
      have hreln := relIdx_posAt (gridC W H T) (Nat.find (bothOut_exists W H T))
      have hlt : relIdx (p.1 - (gridC W H T).1, p.2 - (gridC W H T).2) <
          Nat.find (bothOut_exists W H T) := by
        rw [← hreln]
        apply grid_before_out (tileNum W T) (tileNum H T)
          (tileNum W T / 2) (tileNum H T / 2) rfl rfl
          (by simp only [tileNum]; rw [Nat.one_le_div_iff (by omega)]; omega)
          (by simp only [tileNum]; rw [Nat.one_le_div_iff (by omega)]; omega)
        · omega
        · omega
        · omega
        · omega
        · rcases hbout.1 with h | h
          · left; omega
          · right; omega
        · rcases hbout.2 with h | h
          · left; omega
          · right; omega
      rw [cellsIn, List.mem_filter]
      constructor
      · rw [List.mem_map]
        refine ⟨relIdx (p.1 - (gridC W H T).1, p.2 - (gridC W H T).2), ?_, hppos⟩
        rw [List.mem_range']
        exact ⟨relIdx (p.1 - (gridC W H T).1, p.2 - (gridC W H T).2), hlt, by omega⟩
      · rw [inGridB_iff]
        simpa [gridTN] using hp

/-- The number of emitted cells equals `tiles_x * tiles_y`. -/
theorem emitted_cells_length (W H T : Nat) (hW : 1 ≤ W) (hH : 1 ≤ H)
    (hT : 1 ≤ T) :
    (cellsIn (gridC W H T) (gridTN W H T) 0
      (Nat.find (bothOut_exists W H T))).length =
      tileNum W T * tileNum H T := by
  classical
  obtain ⟨hnd, hmem⟩ := emitted_cells_spec W H T hW hH hT
  set E := cellsIn (gridC W H T) (gridTN W H T) 0
    (Nat.find (bothOut_exists W H T)) with hE
  have hfin : E.toFinset =
      Finset.Ico (0 : Int) (tileNum W T) ×ˢ Finset.Ico (0 : Int) (tileNum H T) := by
    ext p
    rw [List.mem_toFinset, hmem p, Finset.mem_product, Finset.mem_Ico,
      Finset.mem_Ico]
    tauto
  have hcard := List.toFinset_card_of_nodup hnd
  rw [hfin] at hcard
  rw [Finset.card_product, Int.card_Ico, Int.card_Ico] at hcard
  simpa using hcard.symm

/-- The counting loop computes the per-axis ceiling. -/
theorem forCount_eq (T : Nat) (hT : 0 < T) (dim : Nat) :
    ∀ k i, dim - i ≤ k → forCount T hT dim i = tileNum (dim - i) T := by
  intro k
  induction k with
  | zero =>
    intro i hi
    have hnot : ¬ i < dim := by omega
    rw [forCount, dif_neg hnot]
    have : dim - i = 0 := by omega
    rw [this]
    simp only [tileNum]
    rw [Nat.div_eq_of_lt (by omega)]
  | succ k ih =>
    intro i hi
    by_cases hlt : i < dim
    · rw [forCount, dif_pos hlt, ih (i + T) (by omega)]
      have harg : dim - (i + T) = (dim - i) - T := by omega
      rw [harg]
      -- ceiling recurrence: `tileNum (d - T) + 1 = tileNum d` for `d ≥ 1`
      set d := dim - i with hd
      have hd1 : 1 ≤ d := by omega
      rcases le_or_lt d T with hdT | hdT
      · have hz : d - T = 0 := by omega
        rw [hz]
        simp only [tileNum]
        have h0 : (0 + T - 1) / T = 0 := Nat.div_eq_of_lt (by omega)
        have h1 : (d + T - 1) / T = 1 := Nat.div_eq_of_lt_le (by omega) (by omega)
        rw [h0, h1]
      · simp only [tileNum]
        have h1 : d - T + T - 1 = (d - 1 - T) + T := by omega
        have h2 : d + T - 1 = (d - 1) + T := by omega
        rw [h1, h2, Nat.add_div_right _ hT, Nat.add_div_right _ hT]
        have h3 : d - 1 - T + T = d - 1 := by omega
        have h4 : (d - 1 - T + T) / T = (d - 1 - T) / T + 1 :=
          Nat.add_div_right _ hT
        rw [h3] at h4
        rw [h4]
    · rw [forCount, dif_neg hlt]
      have : dim - i = 0 := by omega
      rw [this]
      simp only [tileNum]
      rw [Nat.div_eq_of_lt (by omega)]

/-- `m_totalTask` equals `tiles_x * tiles_y`. -/
theorem totalTask_eq (W H T : Nat) (hT : 0 < T) :
    totalTask W H T hT = tileNum W T * tileNum H T := by
  rw [totalTask, forCount_eq T hT H H 0 (by omega),
    forCount_eq T hT W W 0 (by omega)]
  simp [Nat.mul_comm]

/-! ## Pixel partition -/

/-- Pixel `(px, py)` lies in the rectangle of task `t`. -/
def pixelInB (t : RenderTask) (px py : Nat) : Bool :=
  decide (t.ori.1 ≤ (px : Int)) && decide ((px : Int) < t.ori.1 + t.size.1) &&
  decide (t.ori.2 ≤ (py : Int)) && decide ((py : Int) < t.ori.2 + t.size.2)

/-- The task id does not influence the task's rectangle. -/
theorem countP_numberTasks (W H T : Nat) (px py : Nat) (E : List (Int × Int)) :
    ∀ tid : Nat,
      (numberTasks W H T tid E).countP (fun t => pixelInB t px py) =
        E.countP (fun p => pixelInB (mkTask W H T 0 p) px py) := by
  induction E with
  | nil => intro tid; rfl
  | cons p ps ih =>
    intro tid
    rw [numberTasks, List.countP_cons, List.countP_cons, ih (tid + 1)]
    rfl

/-- Every member of `numberTasks` is an `mkTask` of a member cell. -/
theorem mem_numberTasks (W H T : Nat) (E : List (Int × Int)) :
    ∀ (tid : Nat) (t : RenderTask), t ∈ numberTasks W H T tid E →
      ∃ tid' p, p ∈ E ∧ t = mkTask W H T tid' p := by
  induction E with
  | nil => intro tid t ht; simp [numberTasks] at ht
  | cons p ps ih =>
    intro tid t ht
    rw [numberTasks, List.mem_cons] at ht
    rcases ht with h | h
    · exact ⟨tid, p, List.mem_cons_self _ _, h⟩
    · obtain ⟨tid', q, hq, hqt⟩ := ih (tid + 1) t h
      exact ⟨tid', q, List.mem_cons_of_mem _ hq, hqt⟩

/-- The task ids of `numberTasks` are consecutive starting at `tid`. -/
theorem numberTasks_taskIds (W H T : Nat) (E : List (Int × Int)) :
    ∀ tid : Nat,
      (numberTasks W H T tid E).map RenderTask.taskId =
        List.range' tid E.length := by
  induction E with
  | nil => intro tid; rfl
  | cons p ps ih =>
    intro tid
    rw [numberTasks, List.map_cons, ih (tid + 1), List.length_cons,
      List.range'_succ]
    rfl

/-- A task's rectangle contains pixel `(px, py)` precisely when the task
sits at the pixel's grid cell `(px / T, py / T)`. -/
theorem pixelInB_cell_iff (W H T : Nat) (_hW : 1 ≤ W) (_hH : 1 ≤ H)
    (hT : 1 ≤ T) (p : Int × Int) (px py : Nat) (hpx : px < W) (hpy : py < H)
    (hp : 0 ≤ p.1 ∧ p.1 < (tileNum W T : Int) ∧
      0 ≤ p.2 ∧ p.2 < (tileNum H T : Int)) :
    pixelInB (mkTask W H T 0 p) px py = true ↔
      p = (((px / T : Nat) : Int), ((py / T : Nat) : Int)) := by
  obtain ⟨hp1, hp2, hp3, hp4⟩ := hp
  have hdx := Nat.div_add_mod px T
  have hmx : px % T < T := Nat.mod_lt _ (by omega)
  have hdy := Nat.div_add_mod py T
  have hmy : py % T < T := Nat.mod_lt _ (by omega)
  obtain ⟨a, ha⟩ : ∃ a : Nat, p.1 = (a : Int) := ⟨p.1.toNat, by omega⟩
  obtain ⟨b, hb⟩ : ∃ b : Nat, p.2 = (b : Int) := ⟨p.2.toNat, by omega⟩
  simp only [pixelInB, mkTask, Bool.and_eq_true, decide_eq_true_eq, ha, hb,
    Prod.ext_iff]
  constructor
  · rintro ⟨⟨⟨hx1, hx2⟩, hy1⟩, hy2⟩
    have hxa : (a : Int) * T ≤ px := hx1
    have hax : a * T ≤ px := by exact_mod_cast hxa
    have hbx : b * T ≤ py := by exact_mod_cast hy1
    have hx2T : (px : Int) < (a : Int) * T + T := by
      rcases (show ((T : Int) < (W : Int) - (a : Int) * T ∨
          ¬((T : Int) < (W : Int) - (a : Int) * T)) from em _) with hcase | hcase
      · rw [if_pos hcase] at hx2; exact hx2
      · rw [if_neg hcase] at hx2; omega
    have hy2T : (py : Int) < (b : Int) * T + T := by
      rcases (show ((T : Int) < (H : Int) - (b : Int) * T ∨
          ¬((T : Int) < (H : Int) - (b : Int) * T)) from em _) with hcase | hcase
      · rw [if_pos hcase] at hy2; exact hy2
      · rw [if_neg hcase] at hy2; omega
    have hax2 : px < a * T + T := by exact_mod_cast hx2T
    have hbx2 : py < b * T + T := by exact_mod_cast hy2T
    have hda : px / T = a :=
      Nat.div_eq_of_lt_le hax (by rw [Nat.succ_mul]; omega)
    have hdb : py / T = b :=
      Nat.div_eq_of_lt_le hbx (by rw [Nat.succ_mul]; omega)
    rw [hda, hdb]
    exact ⟨rfl, rfl⟩
  · rintro ⟨hpa, hpb⟩
    have haeq : a = px / T := by exact_mod_cast hpa
    have hbeq : b = py / T := by exact_mod_cast hpb
    subst haeq
    subst hbeq
    have g1 : (px / T) * T ≤ px := Nat.div_mul_le_self px T
    have g2 : px < (px / T) * T + T := Nat.lt_div_mul_add (by omega)
    have g3 : (py / T) * T ≤ py := Nat.div_mul_le_self py T
    have g4 : py < (py / T) * T + T := Nat.lt_div_mul_add (by omega)
    refine ⟨⟨⟨by exact_mod_cast g1, ?_⟩, by exact_mod_cast g3⟩, ?_⟩
    · split_ifs with hcase
      · exact_mod_cast g2
      · have : (px : Int) < W := by exact_mod_cast hpx
        omega
    · split_ifs with hcase
      · exact_mod_cast g4
      · have : (py : Int) < H := by exact_mod_cast hpy
        omega

theorem countP_eq_one_of_nodup_mem {α : Type} [DecidableEq α] :
    ∀ (l : List α) (a : α), l.Nodup → a ∈ l →
      l.countP (fun x => decide (x = a)) = 1 := by
  intro l
  induction l with
  | nil => intro a _ ha; simp at ha
  | cons b bs ih =>
    intro a hnd hmem
    rw [List.countP_cons]
    rcases List.mem_cons.mp hmem with rfl | hmem2
    · have hnotin : a ∉ bs := (List.nodup_cons.mp hnd).1
      have hzero : bs.countP (fun x => decide (x = a)) = 0 := by
        rw [List.countP_eq_zero]
        intro x hx
        simp only [decide_eq_true_eq]
        intro hxa
        exact hnotin (hxa ▸ hx)
      simp [hzero]
    · have hne : b ≠ a := by
        intro hba
        exact (List.nodup_cons.mp hnd).1 (hba ▸ hmem2)
      rw [ih a (List.nodup_cons.mp hnd).2 hmem2]
      simp [hne]

theorem numberTasks_length (W H T : Nat) (E : List (Int × Int)) (tid : Nat) :
    (numberTasks W H T tid E).length = E.length := by
  have h := numberTasks_taskIds W H T E tid
  have h1 := congrArg List.length h
  rw [List.length_map, List.length_range'] at h1
  exact h1

/-- C1: for every image `W × H` (`W, H > 0`) and tile edge `T > 0`, the
tasks pushed by `_pushRenderTask` tile the pixel rectangle exactly (each
pixel lies in precisely one task rectangle), edge tiles are clipped to
`min(T, dimension - origin)`, and the number of tasks is
`⌈W/T⌉ * ⌈H/T⌉ = m_totalTask`. -/
theorem pushRenderTask_partitions (W H T : Nat) (hW : 0 < W) (hH : 0 < H)
    (hT : 0 < T) :
    ∃ l, pushRenderTask W H T = some l ∧
      (∀ px py : Nat, px < W → py < H →
        l.countP (fun t => pixelInB t px py) = 1) ∧
      (∀ t ∈ l, t.size.1 = min (T : Int) ((W : Int) - t.ori.1) ∧
        t.size.2 = min (T : Int) ((H : Int) - t.ori.2)) ∧
      l.length = tileNum W T * tileNum H T ∧
      totalTask W H T hT = tileNum W T * tileNum H T := by
  obtain ⟨hnd, hmem⟩ := emitted_cells_spec W H T hW hH hT
  refine ⟨_, pushRenderTask_run W H T hW hH hT, ?_, ?_, ?_,
    totalTask_eq W H T hT⟩
  · intro px py hpx hpy
    rw [countP_numberTasks]
    have htarget : ((((px / T : Nat)) : Int), (((py / T : Nat)) : Int)) ∈
        cellsIn (gridC W H T) (gridTN W H T) 0
          (Nat.find (bothOut_exists W H T)) := by
      rw [hmem]
      have hspW := (tileNum_spec W T hW hT).1
      have hspH := (tileNum_spec H T hH hT).1
      have hx : px / T < tileNum W T := by
        rw [Nat.div_lt_iff_lt_mul (by omega)]
        omega
      have hy : py / T < tileNum H T := by
        rw [Nat.div_lt_iff_lt_mul (by omega)]
        omega
      refine ⟨?_, ?_, ?_, ?_⟩
      · show (0 : Int) ≤ ((px / T : Nat) : Int)
        positivity
      · show ((px / T : Nat) : Int) < ((tileNum W T : Nat) : Int)
        exact_mod_cast hx
      · show (0 : Int) ≤ ((py / T : Nat) : Int)
        positivity
      · show ((py / T : Nat) : Int) < ((tileNum H T : Nat) : Int)
        exact_mod_cast hy
    have hcong : List.countP (fun p => pixelInB (mkTask W H T 0 p) px py)
        (cellsIn (gridC W H T) (gridTN W H T) 0
          (Nat.find (bothOut_exists W H T))) =
        List.countP
          (fun p => decide
            (p = ((((px / T : Nat)) : Int), (((py / T : Nat)) : Int))))
          (cellsIn (gridC W H T) (gridTN W H T) 0
            (Nat.find (bothOut_exists W H T))) := by
      apply List.countP_congr
      intro x hx
      have hbounds := (hmem x).mp hx
      rw [pixelInB_cell_iff W H T hW hH hT x px py hpx hpy hbounds]
      simp
    rw [hcong]
    exact countP_eq_one_of_nodup_mem _ _ hnd htarget
  · intro t ht
    obtain ⟨tid', p, hp, rfl⟩ := mem_numberTasks W H T _ 0 t ht
    constructor
    · simp only [mkTask]
      split_ifs with h
      · omega
      · omega
    · simp only [mkTask]
      split_ifs with h
      · omega
      · omega
  · rw [numberTasks_length]
    exact emitted_cells_length W H T hW hH hT

theorem tileNum_pos (dim T : Nat) (hd : 0 < dim) (hT : 0 < T) :
    0 < tileNum dim T := by
  simp only [tileNum]
  have h : 1 ≤ (dim + T - 1) / T := by
    rw [Nat.one_le_div_iff (by omega)]
    omega
  omega

/-- Witness for C1 at the spec's scenario `W = 100, H = 50, T = 32`. -/
theorem pushRenderTask_partitions_witness :
    0 < 100 ∧ 0 < 50 ∧ 0 < 32 ∧
      (∃ l, pushRenderTask 100 50 32 = some l ∧
        (∀ px py : Nat, px < 100 → py < 50 →
          l.countP (fun t => pixelInB t px py) = 1) ∧
        (∀ t ∈ l, t.size.1 = min (32 : Int) ((100 : Int) - t.ori.1) ∧
          t.size.2 = min (32 : Int) ((50 : Int) - t.ori.2)) ∧
        l.length = tileNum 100 32 * tileNum 50 32 ∧
        totalTask 100 50 32 (by decide) = tileNum 100 32 * tileNum 50 32) :=
  ⟨by decide, by decide, by decide,
    pushRenderTask_partitions 100 50 32 (by decide) (by decide) (by decide)⟩

/-- C3 counterexample: with `W = H = 3`, `T = 2` the first pushed task
(taskId 0) is the tile at grid cell `(1, 1)` with origin `(2, 2)`; the
image-center pixel `(⌊3/2⌋, ⌊3/2⌋) = (1, 1)` does not lie inside it. -/
theorem firstTile_center_pixel_counterexample :
    pushRenderTask 3 3 2 =
      some [⟨0, (2, 2), (1, 1)⟩, ⟨1, (2, 0), (1, 2)⟩,
            ⟨2, (0, 0), (2, 2)⟩, ⟨3, (0, 2), (2, 1)⟩] ∧
    pixelInB ⟨0, (2, 2), (1, 1)⟩ 1 1 = false := by
  constructor
  · decide
  · decide

/-- C3 amended: for every `W, H > 0` and `T > 0` the first pushed task has
`taskId 0` and is the tile of grid cell `(tiles_x / 2, tiles_y / 2)`,
that is, its origin is `(T * (tiles_x / 2), T * (tiles_y / 2))`. -/
theorem firstTile_is_center_cell (W H T : Nat) (hW : 0 < W) (hH : 0 < H)
    (hT : 0 < T) :
    ∃ l t0, pushRenderTask W H T = some l ∧ l.head? = some t0 ∧
      t0.taskId = 0 ∧
      t0.ori = (((tileNum W T / 2 : Nat) : Int) * T,
                ((tileNum H T / 2 : Nat) : Int) * T) := by
  have htx := tileNum_pos W T hW hT
  have hty := tileNum_pos H T hH hT
  have hrun := pushRenderTask_run W H T hW hH hT
  have hc1 : (gridC W H T).1 = ((tileNum W T / 2 : Nat) : Int) := by
    rw [gridC_cast]
  have hc2 : (gridC W H T).2 = ((tileNum H T / 2 : Nat) : Int) := by
    rw [gridC_cast]
  have h0 : ¬ (bothOutB (gridTN W H T) (posAt (gridC W H T) 0) = true) := by
    rw [bothOutB_iff]
    have hpz : posAt (gridC W H T) 0 = gridC W H T := rfl
    rw [hpz]
    simp only [gridTN]
    intro hcon
    omega
  have hN1 : 1 ≤ Nat.find (bothOut_exists W H T) := by
    rcases Nat.eq_zero_or_pos (Nat.find (bothOut_exists W H T)) with h | h
    · exact absurd (h ▸ Nat.find_spec (bothOut_exists W H T)) h0
    · exact h
  have hsplit : Nat.find (bothOut_exists W H T) =
      (Nat.find (bothOut_exists W H T) - 1) + 1 := by omega
  rw [hsplit, cellsIn_cons] at hrun
  have hgz : inGridB (gridTN W H T) (posAt (gridC W H T) 0) = true := by
    rw [inGridB_iff]
    have hpz : posAt (gridC W H T) 0 = gridC W H T := rfl
    rw [hpz]
    simp only [gridTN]
    refine ⟨by omega, by omega, by omega, by omega⟩
  rw [if_pos hgz] at hrun
  have hpz : posAt (gridC W H T) 0 = gridC W H T := rfl
  rw [hpz] at hrun
  refine ⟨_, mkTask W H T 0 (gridC W H T), hrun, ?_, rfl, ?_⟩
  · simp [numberTasks]
  · simp only [mkTask, hc1, hc2]

/-- Witness for the amended C3 at `W = 3, H = 3, T = 2`. -/
theorem firstTile_is_center_cell_witness :
    0 < 3 ∧ 0 < 2 ∧
      (∃ l t0, pushRenderTask 3 3 2 = some l ∧ l.head? = some t0 ∧
        t0.taskId = 0 ∧
        t0.ori = (((tileNum 3 2 / 2 : Nat) : Int) * 2,
                  ((tileNum 3 2 / 2 : Nat) : Int) * 2)) :=
  ⟨by decide, by decide, firstTile_is_center_cell 3 3 2 (by decide) (by decide)
    (by decide)⟩

/-- C4: the emission loop walks the square spiral exactly as specified:
during run `s` the direction index is `s % 4` (cycling up, left, down,
right via `dirVec`) and the run lengths are `segLen s = s / 2 + 1`
(`1,1,2,2,3,3,...`); the loop stops at exactly the first step `N` whose
position is out of range on both axes, emitting precisely the in-grid
cells of steps `0 .. N-1` in walk order; and in the concrete scenario
`W = H = 64, T = 32` it emits 4 distinct tiles starting at grid cell
`(1,1)`, covering 4096 pixels in total. -/
theorem spiral_enumeration (W H T : Nat) (hW : 0 < W) (hH : 0 < H)
    (hT : 0 < T) :
    (∀ s j : Nat, 1 ≤ j → j ≤ segLen s →
      stateAt (gridC W H T) (cumLen s + j) =
        ⟨((gridC W H T).1 + (segStart s).1 + (j : Int) * (dirVec (s % 4)).1,
          (gridC W H T).2 + (segStart s).2 + (j : Int) * (dirVec (s % 4)).2),
         s % 4, j, segLen s⟩) ∧
    (∃ N : Nat,
      bothOutB (gridTN W H T) (posAt (gridC W H T) N) = true ∧
      (∀ m < N, bothOutB (gridTN W H T) (posAt (gridC W H T) m) = false) ∧
      pushRenderTask W H T =
        some (numberTasks W H T 0 (cellsIn (gridC W H T) (gridTN W H T) 0 N))) ∧
    (pushRenderTask 64 64 32 =
      some [⟨0, (32, 32), (32, 32)⟩, ⟨1, (32, 0), (32, 32)⟩,
            ⟨2, (0, 0), (32, 32)⟩, ⟨3, (0, 32), (32, 32)⟩] ∧
     ([((32 : Int), (32 : Int)), (32, 0), (0, 0), (0, 32)] :
        List (Int × Int)).Nodup ∧
     ((32 : Int) * 32 + 32 * 32 + 32 * 32 + 32 * 32 = 4096)) := by
  refine ⟨stateAt_char (gridC W H T), ?_, by decide, by decide, by decide⟩
  refine ⟨Nat.find (bothOut_exists W H T), Nat.find_spec (bothOut_exists W H T),
    ?_, pushRenderTask_run W H T hW hH hT⟩
  intro m hm
  have := Nat.find_min (bothOut_exists W H T) hm
  simpa using this

/-- Witness for C4 at `W = H = 64, T = 32`. -/
theorem spiral_enumeration_witness :
    0 < 64 ∧ 0 < 32 ∧
      ((∀ s j : Nat, 1 ≤ j → j ≤ segLen s →
        stateAt (gridC 64 64 32) (cumLen s + j) =
          ⟨((gridC 64 64 32).1 + (segStart s).1 + (j : Int) * (dirVec (s % 4)).1,
            (gridC 64 64 32).2 + (segStart s).2 + (j : Int) * (dirVec (s % 4)).2),
           s % 4, j, segLen s⟩) ∧
      (∃ N : Nat,
        bothOutB (gridTN 64 64 32) (posAt (gridC 64 64 32) N) = true ∧
        (∀ m < N, bothOutB (gridTN 64 64 32) (posAt (gridC 64 64 32) m) = false) ∧
        pushRenderTask 64 64 32 =
          some (numberTasks 64 64 32 0
            (cellsIn (gridC 64 64 32) (gridTN 64 64 32) 0 N))) ∧
      (pushRenderTask 64 64 32 =
        some [⟨0, (32, 32), (32, 32)⟩, ⟨1, (32, 0), (32, 32)⟩,
              ⟨2, (0, 0), (32, 32)⟩, ⟨3, (0, 32), (32, 32)⟩] ∧
       ([((32 : Int), (32 : Int)), (32, 0), (0, 0), (0, 32)] :
          List (Int × Int)).Nodup ∧
       ((32 : Int) * 32 + 32 * 32 + 32 * 32 + 32 * 32 = 4096))) :=
  ⟨by decide, by decide,
    spiral_enumeration 64 64 32 (by decide) (by decide) (by decide)⟩

/-! ## Render orchestration: `System::Render` and `System::PreProcess`

`PreProcess` (lines 89-113) warns and returns early when `m_imagesensor`
or `m_camera` is null, but it returns `void`; `Render` (lines 64-79) then
calls `_pushRenderTask()` and `_executeRenderingTasks()` unconditionally.
We model the orchestration as the sequence of observable actions. -/

/-- Observable actions of the render orchestration. -/
inductive Action where
  | warnNoSensor
  | warnNoCamera
  | scenePreProcess
  | pushTask (taskId : Nat)
  | threadStart (threadId : Nat)
  | threadJoin (threadId : Nat)
  | outputProgressAct
deriving Repr, DecidableEq

/-- `System::PreProcess`: warn and return early on a null image sensor or
camera, otherwise preprocess the scene. -/
def preProcessActions (sensorAttached cameraAttached : Bool) : List Action :=
  if !sensorAttached then [Action.warnNoSensor]
  else if !cameraAttached then [Action.warnNoCamera]
  else [Action.scenePreProcess]

/-- The `RenderTaskQueue::PushTask` calls made by `_pushRenderTask`, one
per emitted task. -/
def pushTaskActions (W H T : Nat) : List Action :=
  ((pushRenderTask W H T).getD []).map (fun t => Action.pushTask t.taskId)

/-- `_executeRenderingTasks` (lines 235-261): create and start all worker
threads, join them all, then output progress. -/
def executeActions (threadNum : Nat) : List Action :=
  ((List.range threadNum).map Action.threadStart) ++
    ((List.range threadNum).map Action.threadJoin) ++ [Action.outputProgressAct]

/-- `System::Render`: `PreProcess()`, then `_pushRenderTask()`, then
`_executeRenderingTasks()`; the latter two are executed whether or not
`PreProcess` returned early. -/
def renderActions (sensorAttached cameraAttached : Bool)
    (W H T threadNum : Nat) : List Action :=
  preProcessActions sensorAttached cameraAttached ++
    pushTaskActions W H T ++ executeActions threadNum

/-- C2 (code bug): when no image sensor is attached, `PreProcess` emits
its warning and returns early, yet `Render` still pushes every render
task and still starts and joins worker threads — the pass is not aborted.
(In the real program `_pushRenderTask` then dereferences the null
`m_imagesensor`.) -/
theorem render_null_sensor_still_pushes :
    renderActions false false 64 64 32 2 =
      Action.warnNoSensor :: (pushTaskActions 64 64 32 ++ executeActions 2) ∧
    Action.pushTask 0 ∈ renderActions false false 64 64 32 2 ∧
    Action.threadStart 0 ∈ renderActions false false 64 64 32 2 ∧
    renderActions false false 64 64 32 2 ≠ [Action.warnNoSensor] := by
  refine ⟨by decide, by decide, by decide, by decide⟩

theorem getElem_append_first {α : Type} (l1 l2 : List α) (i : Nat) (x : α)
    (hx : ∀ y ∈ l2, y ≠ x) (h : (l1 ++ l2)[i]? = some x) : i < l1.length := by
  by_contra hc
  rw [List.getElem?_append_right (by omega)] at h
  exact hx x (List.getElem?_mem h) rfl

theorem getElem_append_second {α : Type} (l1 l2 : List α) (i : Nat) (x : α)
    (hx : ∀ y ∈ l1, y ≠ x) (h : (l1 ++ l2)[i]? = some x) : l1.length ≤ i := by
  by_contra hc
  rw [List.getElem?_append_left (by omega)] at h
  exact hx x (List.getElem?_mem h) rfl

/-- C8: the task queue is fully populated before any worker starts: in the
`Render` action sequence every `PushTask` occurs strictly before every
thread start, and no push occurs after any thread start. -/
theorem tasks_pushed_before_workers (sensorAttached cameraAttached : Bool)
    (W H T threadNum : Nat) (i j a b : Nat)
    (hi : (renderActions sensorAttached cameraAttached W H T threadNum)[i]? =
      some (Action.pushTask a))
    (hj : (renderActions sensorAttached cameraAttached W H T threadNum)[j]? =
      some (Action.threadStart b)) :
    i < j := by
  have hpre : ∀ y ∈ preProcessActions sensorAttached cameraAttached ++
      pushTaskActions W H T, y ≠ Action.threadStart b := by
    intro y hy
    rw [List.mem_append] at hy
    rcases hy with hy | hy
    · simp only [preProcessActions] at hy
      split_ifs at hy <;> simp_all
    · simp only [pushTaskActions, List.mem_map] at hy
      obtain ⟨t, _, rfl⟩ := hy
      simp
  have hexe : ∀ y ∈ executeActions threadNum, y ≠ Action.pushTask a := by
    intro y hy
    simp only [executeActions, List.mem_append, List.mem_map,
      List.mem_singleton] at hy
    rcases hy with (⟨t, _, rfl⟩ | ⟨t, _, rfl⟩) | rfl <;> simp
  have h1 : i < (preProcessActions sensorAttached cameraAttached ++
      pushTaskActions W H T).length := by
    apply getElem_append_first _ _ _ _ hexe
    simpa [renderActions, List.append_assoc] using hi
  have h2 : (preProcessActions sensorAttached cameraAttached ++
      pushTaskActions W H T).length ≤ j := by
    apply getElem_append_second _ _ _ _ hpre
    simpa [renderActions, List.append_assoc] using hj
  omega

/-- Witness for C8: a concrete render trace (sensor and camera attached,
`W = H = 64`, `T = 32`, 2 threads) where push index 1 precedes the first
thread start at index 5. -/
theorem tasks_pushed_before_workers_witness :
    (renderActions true true 64 64 32 2)[1]? = some (Action.pushTask 0) ∧
    (renderActions true true 64 64 32 2)[5]? = some (Action.threadStart 0) ∧
    (1 : Nat) < 5 :=
  ⟨by decide, by decide,
    tasks_pushed_before_workers true true 64 64 32 2 1 5 0 0
      (by decide) (by decide)⟩

/-! ## `System::Setup` (lines 285-426) -/

/-- Byte size of the shared memory region requested by `Setup`
(lines 406-411): pixel buffer `header_size * T * T * 4 * sizeof(float) * 2`
plus `header_size` completion bytes plus 2 trailing bytes (progress and
final-update flag), with `header_size = x_tile * y_tile` and
`sizeof(float) = 4`. -/
def smSize (W H T : Nat) : Nat :=
  tileNum W T * tileNum H T * T * T * 4 * 4 * 2 + tileNum W T * tileNum H T + 2

/-- State of the shared-memory region after the `if (sm.bytes)` branch of
`Setup` (lines 416-423): on a non-null pointer the whole region is zeroed
(`memset(sm.bytes, 0, sm.size)`) and `m_pProgress = sm.bytes + sm.size - 2`;
on a null pointer nothing happens and `m_pProgress` keeps the null value
set in `_preInit`. -/
structure SMState where
  contents : Option (Nat → Nat)
  progressOff : Option Nat

def setupSharedMem (W H T : Nat) (allocOk : Bool) : SMState :=
  if allocOk then
    { contents := some (fun _ => 0), progressOff := some (smSize W H T - 2) }
  else
    { contents := none, progressOff := none }

/-- C5: shared-memory layout.  Generally the progress byte sits at offset
`size - 2` (the second-to-last byte, the final-update flag being the last
byte `size - 1`), the region is zeroed on successful allocation, and for
`W = 1920, H = 1080, T = 32` the header is `60 * 34 = 2040` bytes and the
pixel buffer is `2040 * 32 * 32 * 4 * 4 * 2` bytes. -/
theorem setup_sharedMemory_layout :
    (∀ W H T : Nat,
      (setupSharedMem W H T true).progressOff = some (smSize W H T - 2) ∧
      (smSize W H T - 2) + 1 = smSize W H T - 1 ∧
      (smSize W H T - 1) + 1 = smSize W H T ∧
      (setupSharedMem W H T true).contents = some (fun _ => 0) ∧
      (setupSharedMem W H T false).progressOff = none) ∧
    tileNum 1920 32 = 60 ∧
    tileNum 1080 32 = 34 ∧
    smSize 1920 1080 32 = 2040 * 32 * 32 * 4 * 4 * 2 + 2040 + 2 := by
  refine ⟨?_, by decide, ?_, ?_⟩
  · intro W H T
    refine ⟨rfl, by simp [smSize], by simp [smSize], rfl, rfl⟩
  · show (1080 + 32 - 1) / 32 = 34
    decide
  · show (1920 + 32 - 1) / 32 * ((1080 + 32 - 1) / 32) * 32 * 32 * 4 * 4 * 2 +
      (1920 + 32 - 1) / 32 * ((1080 + 32 - 1) / 32) + 2 =
      2040 * 32 * 32 * 4 * 4 * 2 + 2040 + 2
    norm_num

/-- Abstraction of the scene description file as far as `Setup` reads it:
presence of the XML elements and the attributes `Setup` dereferences, plus
whether the named sampler/camera types are registered in the factory
(`CREATE_TYPE` returning non-null). -/
structure SceneFileDoc where
  sceneElem : Option (Option String)
  integratorElem : Option (Option String)
  samplerElem : Option (Option String × Option String)
  samplerTypeValid : Bool
  cameraElem : Option (Option String)
  cameraTypeValid : Bool
deriving Repr, DecidableEq

/-- Possible outcomes of `Setup`. -/
inductive SetupResult where
  | returnedFalse
  | nullStringIntegrator
  | nullDerefAtoi
  | nullDerefSampler
  | nullDerefCamera
  | returnedTrue (progressSet : Bool)
deriving Repr, DecidableEq

/-- The camera block (lines 368-400) and everything after it: a present
camera element with an unregistered type returns `false` (lines 376-377);
an absent camera element leaves `m_camera` null from `_preInit`, and
`m_camera->SetImageSensor(m_imagesensor)` at line 400 dereferences the
null pointer.  A registered camera reaches the end; `Setup` returns `true`
no matter whether the shared-memory allocation succeeded. -/
def setupCameraOn (doc : SceneFileDoc) (allocOk : Bool) : SetupResult :=
  match doc.cameraElem with
  | some _ => if doc.cameraTypeValid then .returnedTrue allocOk else .returnedFalse
  | none => .nullDerefCamera

/-- Control flow of `Setup`: the Scene element must exist and carry a
`value` attribute (else `return false`, lines 305-313); the Integrator
element must exist (else `return false`, line 336), and reading a missing
`type` attribute constructs `std::string` from a null pointer (line 319);
a present Sampler element reads its `round` attribute with `atoi`
(crashing on null, line 355) and calls `RoundSize` on the created sampler
(null for an unregistered type, lines 360-361); then the camera block
runs. -/
def setupModel (doc : SceneFileDoc) (allocOk : Bool) : SetupResult :=
  match doc.sceneElem with
  | none => .returnedFalse
  | some none => .returnedFalse
  | some (some _) =>
    match doc.integratorElem with
    | none => .returnedFalse
    | some none => .nullStringIntegrator
    | some (some _) =>
      match doc.samplerElem with
      | some (_, none) => .nullDerefAtoi
      | some (_, some _) =>
        if doc.samplerTypeValid then setupCameraOn doc allocOk
        else .nullDerefSampler
      | none => setupCameraOn doc allocOk

/-- C9 counterexample: a file whose Scene element has no `value`
attribute, with an Integrator element and no Camera element, makes `Setup`
return `false` early — it never reaches `m_camera->SetImageSensor`.  So
not every Scene-and-Integrator file without a Camera element reaches the
null-camera dereference. -/
theorem setup_noCamera_counterexample :
    setupModel
      { sceneElem := some none
        integratorElem := some (some "pathtracing")
        samplerElem := none
        samplerTypeValid := true
        cameraElem := none
        cameraTypeValid := true } true = SetupResult.returnedFalse ∧
    SetupResult.returnedFalse ≠ SetupResult.nullDerefCamera := by
  exact ⟨rfl, by decide⟩

/-- C9 amended: whenever the file has a Scene element with a `value`
attribute, an Integrator element with a `type` attribute, either no
Sampler element or one with a `round` attribute and a registered type, and
no Camera element, `Setup` does not return `false` early and reaches
`m_camera->SetImageSensor` with `m_camera` still null — the null
dereference is reachable through the public `Setup` interface. -/
theorem setup_noCamera_nullDeref (doc : SceneFileDoc) (allocOk : Bool)
    (hs : ∃ v, doc.sceneElem = some (some v))
    (hi : ∃ t, doc.integratorElem = some (some t))
    (hsam : doc.samplerElem = none ∨
      (∃ st rd, doc.samplerElem = some (st, some rd) ∧
        doc.samplerTypeValid = true))
    (hc : doc.cameraElem = none) :
    setupModel doc allocOk = SetupResult.nullDerefCamera := by
  obtain ⟨v, hv⟩ := hs
  obtain ⟨t, ht⟩ := hi
  rw [setupModel, hv, ht]
  rcases hsam with hnone | ⟨st, rd, hrd, hvalid⟩
  · rw [hnone]
    rw [setupCameraOn, hc]
  · rw [hrd, if_pos hvalid]
    rw [setupCameraOn, hc]

/-- Witness for the amended C9 at a concrete scene file. -/
theorem setup_noCamera_nullDeref_witness :
    setupModel
      { sceneElem := some (some "scene.xml")
        integratorElem := some (some "pathtracing")
        samplerElem := some (some "stratified", some "16")
        samplerTypeValid := true
        cameraElem := none
        cameraTypeValid := true } true = SetupResult.nullDerefCamera :=
  setup_noCamera_nullDeref _ true ⟨"scene.xml", rfl⟩ ⟨"pathtracing", rfl⟩
    (Or.inr ⟨some "stratified", "16", rfl, rfl⟩) rfl

/-! ## Sampler round clamping (C10, lines 349-366) -/

/-- C `atoi` on the digit part: accumulate decimal digits, stop at the
first non-digit. -/
def atoiDigits : List Char → Int → Int
  | [], acc => acc
  | c :: cs, acc =>
    if c.isDigit then atoiDigits cs (acc * 10 + ((c.toNat : Int) - 48))
    else acc

/-- C `atoi`: skip leading whitespace, read an optional sign, then
decimal digits (overflow aside, which is undefined behaviour in C). -/
def atoiModel (s : List Char) : Int :=
  match s.dropWhile Char.isWhitespace with
  | '-' :: rest => - atoiDigits rest 0
  | '+' :: rest => atoiDigits rest 0
  | rest => atoiDigits rest 0

/-- The `round` value passed to `m_pSampler->RoundSize` (lines 355-361):
`unsigned round = atoi(str_round)` (conversion to `unsigned` is reduction
modulo `2^32`), then `if (round < 1) round = 1; if (round > 1024) round =
1024;`. -/
def samplerRoundArg (s : List Char) : Nat :=
  let r : Nat := ((atoiModel s) % (4294967296 : Int)).toNat
  let r1 : Nat := if r < 1 then 1 else r
  if r1 > 1024 then 1024 else r1

/-- C10: for every attribute string, the argument handed to `RoundSize`
lies in `[1, 1024]`.  Negative `atoi` results wrap around as large
unsigned values and are clamped to 1024; non-numeric strings parse to 0
and are raised to 1. -/
theorem samplerRoundArg_clamped :
    (∀ s : List Char, 1 ≤ samplerRoundArg s ∧ samplerRoundArg s ≤ 1024) ∧
    samplerRoundArg ['1', '6'] = 16 ∧
    samplerRoundArg ['-', '5'] = 1024 ∧
    samplerRoundArg ['x'] = 1 ∧
    samplerRoundArg ['9', '9', '9', '9'] = 1024 := by
  refine ⟨?_, by decide, by decide, by decide, by decide⟩
  intro s
  simp only [samplerRoundArg]
  split_ifs <;> omega

/-! ## Single-precision progress computation (`System::_outputProgress`)

The progress percentage is computed in single precision:
`(unsigned)((float)(taskDone) / (float)m_totalTask * 100)` (line 130).
We model IEEE-754 binary32 arithmetic exactly over `ℚ`: every operation
result is rounded to a 24-bit significand, round-to-nearest,
ties-to-even.  All intermediate values here are normal and far below
overflow, so this is the exact value semantics of the C expression. -/

/-- Fuel-bounded binary logarithm, `natLog2 fuel n = ⌊log₂ n⌋` whenever
`1 ≤ n ≤ fuel` (structural recursion on the fuel). -/
def natLog2 : Nat → Nat → Nat
  | 0, _ => 0
  | fuel + 1, n => if n ≤ 1 then 0 else natLog2 fuel (n / 2) + 1

theorem natLog2_spec : ∀ fuel n, 1 ≤ n → n ≤ fuel →
    2 ^ natLog2 fuel n ≤ n ∧ n < 2 ^ (natLog2 fuel n + 1) := by
  intro fuel
  induction fuel with
  | zero => intro n h1 h2; omega
  | succ f ih =>
    intro n h1 h2
    rw [natLog2]
    split_ifs with hle
    · simp
      omega
    · have hm1 : 1 ≤ n / 2 := by omega
      have hm2 : n / 2 ≤ f := by omega
      obtain ⟨l1, l2⟩ := ih (n / 2) hm1 hm2
      have e1 : 2 ^ (natLog2 f (n / 2) + 1) = 2 * 2 ^ natLog2 f (n / 2) := by
        rw [pow_succ]
        ring
      have e2 : 2 ^ (natLog2 f (n / 2) + 1 + 1) =
          2 * 2 ^ (natLog2 f (n / 2) + 1) := by
        rw [pow_succ _ (natLog2 f (n / 2) + 1)]
        ring
      constructor
      · rw [e1]
        omega
      · rw [e2, e1]
        omega

/-- Floor of the base-2 logarithm of a positive rational. -/
def floorLog2 (q : ℚ) : Int :=
  let e0 : Int :=
    (natLog2 q.num.toNat q.num.toNat : Int) - (natLog2 q.den q.den : Int)
  if q < 2 ^ e0 then e0 - 1 else e0

/-- Round to the nearest integer, ties to even. -/
def roundHalfEven (x : ℚ) : Int :=
  if x - ⌊x⌋ < 1 / 2 then ⌊x⌋
  else if 1 / 2 < x - ⌊x⌋ then ⌊x⌋ + 1
  else if ⌊x⌋ % 2 = 0 then ⌊x⌋ else ⌊x⌋ + 1

/-- Exact value of rounding a nonnegative normal-range real to binary32:
scale into `[2^23, 2^24)`, round the significand to nearest (ties to
even), scale back. -/
def fl32 (q : ℚ) : ℚ :=
  if q ≤ 0 then 0
  else (roundHalfEven (q * 2 ^ ((23 : Int) - floorLog2 q)) : ℚ) *
    2 ^ (floorLog2 q - 23)

/-- One unit in the last place of a 24-bit significand, relative form. -/
def ulp24 : ℚ := 1 / 16777216

theorem floorLog2_spec (q : ℚ) (hq : 0 < q) :
    (2 : ℚ) ^ floorLog2 q ≤ q ∧ q < 2 ^ (floorLog2 q + 1) := by
  have hnum : 0 < q.num := Rat.num_pos.mpr hq
  have ha1 : 1 ≤ q.num.toNat := by omega
  have hb1 : 1 ≤ q.den := q.pos
  have hqab : q = (q.num.toNat : ℚ) / (q.den : ℚ) := by
    have h1 : ((q.num.toNat : Int) : ℚ) = (q.num : ℚ) := by
      congr 1
      omega
    rw [show ((q.num.toNat : Nat) : ℚ) = ((q.num.toNat : Int) : ℚ) by
      push_cast; ring, h1, Rat.num_div_den]
  set a := q.num.toNat with hadef
  set b := q.den with hbdef
  set la := natLog2 a a with hladef
  set lb := natLog2 b b with hlbdef
  have pa1 : 2 ^ la ≤ a := (natLog2_spec a a ha1 le_rfl).1
  have pa2 : a < 2 ^ (la + 1) := (natLog2_spec a a ha1 le_rfl).2
  have pb1 : 2 ^ lb ≤ b := (natLog2_spec b b hb1 le_rfl).1
  have pb2 : b < 2 ^ (lb + 1) := (natLog2_spec b b hb1 le_rfl).2
  have hb0 : (0 : ℚ) < (b : ℚ) := by exact_mod_cast hb1
  have hpow : ∀ n : Nat, ((2 : ℚ) ^ (n : Int)) = ((2 ^ n : Nat) : ℚ) := by
    intro n
    rw [zpow_natCast]
    push_cast
    ring
  have lower_q : (2 : ℚ) ^ ((la : Int) - (lb : Int) - 1) ≤ q := by
    have hsplit : (2 : ℚ) ^ ((la : Int) - (lb : Int) - 1) =
        (2 : ℚ) ^ (la : Int) / (2 : ℚ) ^ (((lb + 1) : Nat) : Int) := by
      rw [← zpow_sub₀ (by norm_num : (2 : ℚ) ≠ 0)]
      congr 1
      push_cast
      ring
    rw [hsplit, hqab, div_le_div_iff (by positivity) hb0, hpow, hpow]
    have h2 : ((2 ^ la : Nat) : ℚ) * (b : ℚ) ≤ (a : ℚ) * ((2 ^ (lb + 1) : Nat) : ℚ) := by
      have := Nat.mul_le_mul pa1 (Nat.le_of_lt pb2)
      exact_mod_cast this
    exact h2
  have upper_q : q < (2 : ℚ) ^ ((la : Int) - (lb : Int) + 1) := by
    have hsplit : (2 : ℚ) ^ ((la : Int) - (lb : Int) + 1) =
        (2 : ℚ) ^ (((la + 1) : Nat) : Int) / (2 : ℚ) ^ ((lb : Nat) : Int) := by
      rw [← zpow_sub₀ (by norm_num : (2 : ℚ) ≠ 0)]
      congr 1
      push_cast
      ring
    rw [hsplit, hqab, div_lt_div_iff hb0 (by positivity), hpow, hpow]
    have h2 : (a : ℚ) * ((2 ^ lb : Nat) : ℚ) < ((2 ^ (la + 1) : Nat) : ℚ) * (b : ℚ) := by
      have h3 : a * 2 ^ lb < 2 ^ (la + 1) * b :=
        Nat.lt_of_lt_of_le (Nat.mul_lt_mul_of_lt_of_le pa2 le_rfl (by positivity))
          (Nat.mul_le_mul_left _ pb1)
      exact_mod_cast h3
    exact h2
  simp only [floorLog2]
  split_ifs with hcase
  · constructor
    · have : (la : Int) - (lb : Int) - 1 = (la : Int) - lb - 1 := rfl
      exact lower_q
    · have heq : ((la : Int) - lb - 1) + 1 = (la : Int) - lb := by ring
      rw [heq]
      exact hcase
  · constructor
    · exact not_lt.mp hcase
    · exact upper_q

theorem roundHalfEven_bounds (x : ℚ) :
    x - 1 / 2 ≤ (roundHalfEven x : ℚ) ∧ (roundHalfEven x : ℚ) ≤ x + 1 / 2 := by
  have h1 : (⌊x⌋ : ℚ) ≤ x := Int.floor_le x
  have h2 : x < (⌊x⌋ : ℚ) + 1 := Int.lt_floor_add_one x
  simp only [roundHalfEven]
  split_ifs <;> constructor <;> push_cast <;> linarith

theorem fl32_bounds (q : ℚ) (hq : 0 < q) :
    q * (1 - ulp24) ≤ fl32 q ∧ fl32 q ≤ q * (1 + ulp24) := by
  obtain ⟨hlo, hhi⟩ := floorLog2_spec q hq
  set e := floorLog2 q with hedef
  have h2pos : ∀ z : Int, (0 : ℚ) < 2 ^ z := fun z =>
    zpow_pos (by norm_num) z
  obtain ⟨hr1, hr2⟩ := roundHalfEven_bounds (q * 2 ^ ((23 : Int) - e))
  have hfl : fl32 q = (roundHalfEven (q * 2 ^ ((23 : Int) - e)) : ℚ) *
      2 ^ (e - 23) := by
    rw [fl32, if_neg (by linarith)]
  have hcancel : (2 : ℚ) ^ ((23 : Int) - e) * 2 ^ (e - 23) = 1 := by
    rw [← zpow_add₀ (by norm_num : (2 : ℚ) ≠ 0)]
    norm_num
  have hhalf : (1 / 2 : ℚ) * 2 ^ (e - 23) = 2 ^ (e - 24) := by
    have h24 : (e - 24 : Int) = (-1) + (e - 23) := by ring
    rw [h24, zpow_add₀ (by norm_num : (2 : ℚ) ≠ 0)]
    norm_num
  have herr : (2 : ℚ) ^ (e - 24) ≤ q * ulp24 := by
    have h24 : (e - 24 : Int) = e + (-24) := by ring
    rw [h24, zpow_add₀ (by norm_num : (2 : ℚ) ≠ 0)]
    have hulp : (2 : ℚ) ^ (-24 : Int) = ulp24 := by
      rw [zpow_neg, ulp24]
      norm_num
    rw [hulp]
    have : (0 : ℚ) < ulp24 := by rw [ulp24]; norm_num
    nlinarith
  constructor
  · rw [hfl]
    have step : (q * 2 ^ ((23 : Int) - e) - 1 / 2) * 2 ^ (e - 23) ≤
        (roundHalfEven (q * 2 ^ ((23 : Int) - e)) : ℚ) * 2 ^ (e - 23) :=
      mul_le_mul_of_nonneg_right hr1 (le_of_lt (h2pos _))
    have hexp : (q * 2 ^ ((23 : Int) - e) - 1 / 2) * 2 ^ (e - 23) =
        q - 2 ^ (e - 24) := by
      rw [sub_mul, mul_assoc, hcancel, hhalf]
      ring
    rw [hexp] at step
    nlinarith [herr]
  · rw [hfl]
    have step : (roundHalfEven (q * 2 ^ ((23 : Int) - e)) : ℚ) * 2 ^ (e - 23) ≤
        (q * 2 ^ ((23 : Int) - e) + 1 / 2) * 2 ^ (e - 23) :=
      mul_le_mul_of_nonneg_right hr2 (le_of_lt (h2pos _))
    have hexp : (q * 2 ^ ((23 : Int) - e) + 1 / 2) * 2 ^ (e - 23) =
        q + 2 ^ (e - 24) := by
      rw [add_mul, mul_assoc, hcancel, hhalf]
      ring
    rw [hexp] at step
    nlinarith [herr]

theorem fl32_nonneg (q : ℚ) : 0 ≤ fl32 q := by
  rcases le_or_lt q 0 with h | h
  · rw [fl32, if_pos h]
  · have := (fl32_bounds q h).1
    have hu : (0 : ℚ) < 1 - ulp24 := by rw [ulp24]; norm_num
    nlinarith

theorem fl32_pos (q : ℚ) (hq : 0 < q) : 0 < fl32 q := by
  have := (fl32_bounds q hq).1
  have hu : (0 : ℚ) < 1 - ulp24 := by rw [ulp24]; norm_num
  nlinarith

/-- Number of finished tasks: the loop `for (i = 0; i < m_totalTask; ++i)
taskDone += m_taskDone[i]` summing the boolean completion table
(lines 125-127). -/
def taskDoneCount (flags : List Bool) : Nat :=
  (flags.map (fun b => if b then 1 else 0)).sum

/-- Exact value of `(unsigned)((float)(taskDone) / (float)m_totalTask * 100)`
(line 130): both counters are converted to `float`, the quotient is a
single-precision division, the product with `100` a single-precision
multiplication, and the final cast truncates toward zero. -/
def progressValue (k N : Nat) : Nat :=
  (⌊fl32 (fl32 (fl32 (k : ℚ) / fl32 (N : ℚ)) * 100)⌋).toNat

/-- Destinations of one progress report (lines 132-135):
`if (!g_bBlenderMode) cout << progress << ...; else if (m_pProgress)
*m_pProgress = progress;`.  The first component is the value printed to
the console, the second the value written through `m_pProgress`. -/
def outputProgress (blender : Bool) (pp : Option Nat) (flags : List Bool) :
    Option Nat × Option Nat :=
  let progress := progressValue (taskDoneCount flags) flags.length
  if !blender then (some progress, none)
  else
    match pp with
    | some _ => (none, some progress)
    | none => (none, none)

theorem fl32_zero : fl32 0 = 0 := by
  rw [fl32, if_pos le_rfl]

theorem progressValue_zero (N : Nat) : progressValue 0 N = 0 := by
  rw [progressValue, show ((0 : Nat) : ℚ) = 0 by norm_num, fl32_zero,
    zero_div, fl32_zero, zero_mul, fl32_zero]
  simp

theorem taskDoneCount_le_length (flags : List Bool) :
    taskDoneCount flags ≤ flags.length := by
  induction flags with
  | nil => simp [taskDoneCount]
  | cons b bs ih =>
    simp only [taskDoneCount, List.map_cons, List.sum_cons,
      List.length_cons] at *
    split_ifs <;> omega

/-- The relative errors of the three rounded operations compound to an
absolute error below one half on the final percentage. -/
theorem fl32_progress_err (K M : ℚ) (hK : 0 < K) (hM : 0 < M) (hKM : K ≤ M) :
    100 * (K / M) - 1 / 2 ≤ fl32 (fl32 (fl32 K / fl32 M) * 100) ∧
    fl32 (fl32 (fl32 K / fl32 M) * 100) ≤ 100 * (K / M) + 1 / 2 := by
  have hu0 : (0 : ℚ) < ulp24 := by norm_num [ulp24]
  have hu1 : ulp24 < 1 := by norm_num [ulp24]
  obtain ⟨ha1, ha2⟩ := fl32_bounds K hK
  obtain ⟨hb1, hb2⟩ := fl32_bounds M hM
  have hapos : 0 < fl32 K := fl32_pos K hK
  have hbpos : 0 < fl32 M := fl32_pos M hM
  set a := fl32 K with hadef
  set b := fl32 M with hbdef
  have htq : 0 < a / b := div_pos hapos hbpos
  obtain ⟨ht1, ht2⟩ := fl32_bounds (a / b) htq
  have htpos : 0 < fl32 (a / b) := fl32_pos _ htq
  set t := fl32 (a / b) with htdef
  obtain ⟨hm1, hm2⟩ := fl32_bounds (t * 100) (by positivity)
  set m := fl32 (t * 100) with hmdef
  have hM0 : M ≠ 0 := ne_of_gt hM
  have hu2 : (1 : ℚ) - ulp24 ≠ 0 := by
    intro h
    rw [ulp24] at h
    norm_num at h
  have hs0 : (0 : ℚ) ≤ K / M := by positivity
  have hs1 : K / M ≤ 1 := (div_le_one hM).mpr hKM
  have hdenpos : 0 < M * (1 - ulp24) := mul_pos hM (by linarith)
  constructor
  · -- lower bound
    have hlb : (K * (1 - ulp24)) / (M * (1 + ulp24)) ≤ a / b :=
      div_le_div hapos.le ha1 hbpos hb2
    have hlb2 : ((K * (1 - ulp24)) / (M * (1 + ulp24))) * (1 - ulp24) ≤ t :=
      le_trans (mul_le_mul_of_nonneg_right hlb (by linarith)) ht1
    have hlb3 : (((K * (1 - ulp24)) / (M * (1 + ulp24))) * (1 - ulp24) * 100) *
        (1 - ulp24) ≤ m := by
      have s1 : ((K * (1 - ulp24)) / (M * (1 + ulp24))) * (1 - ulp24) * 100 ≤
          t * 100 := mul_le_mul_of_nonneg_right hlb2 (by norm_num)
      have s2 : (((K * (1 - ulp24)) / (M * (1 + ulp24))) * (1 - ulp24) * 100) *
          (1 - ulp24) ≤ (t * 100) * (1 - ulp24) :=
        mul_le_mul_of_nonneg_right s1 (by linarith)
      exact le_trans s2 hm1
    have hkey2 : (((K * (1 - ulp24)) / (M * (1 + ulp24))) * (1 - ulp24) * 100) *
        (1 - ulp24) = (K / M) * ((100 * (1 - ulp24) ^ 3) / (1 + ulp24)) := by
      field_simp
      ring
    have hC2 : 100 - 1 / 2 ≤ (100 * (1 - ulp24) ^ 3) / (1 + ulp24) := by
      rw [ulp24]
      norm_num
    rw [hkey2] at hlb3
    have h5 := mul_le_mul_of_nonneg_left hC2 hs0
    linarith
  · -- upper bound
    have hub : a / b ≤ (K * (1 + ulp24)) / (M * (1 - ulp24)) :=
      div_le_div (by nlinarith) ha2 hdenpos hb1
    have hub2 : t ≤ ((K * (1 + ulp24)) / (M * (1 - ulp24))) * (1 + ulp24) :=
      le_trans ht2 (mul_le_mul_of_nonneg_right hub (by linarith))
    have hub3 : m ≤ (((K * (1 + ulp24)) / (M * (1 - ulp24))) * (1 + ulp24) *
        100) * (1 + ulp24) := by
      have s1 : t * 100 ≤
          ((K * (1 + ulp24)) / (M * (1 - ulp24))) * (1 + ulp24) * 100 :=
        mul_le_mul_of_nonneg_right hub2 (by norm_num)
      have s2 : (t * 100) * (1 + ulp24) ≤
          (((K * (1 + ulp24)) / (M * (1 - ulp24))) * (1 + ulp24) * 100) *
            (1 + ulp24) := mul_le_mul_of_nonneg_right s1 (by linarith)
      exact le_trans hm2 s2
    have hkey : (((K * (1 + ulp24)) / (M * (1 - ulp24))) * (1 + ulp24) * 100) *
        (1 + ulp24) = (K / M) * ((100 * (1 + ulp24) ^ 3) / (1 - ulp24)) := by
      field_simp
      ring
    have hC : (100 * (1 + ulp24) ^ 3) / (1 - ulp24) ≤ 100 + 1 / 2 := by
      rw [ulp24]
      norm_num
    rw [hkey] at hub3
    have h5 := mul_le_mul_of_nonneg_left hC hs0
    linarith

/-- The computed progress value is within one percentage point of the
exact integer percentage `100 * k / N`. -/
theorem progressValue_bounds (k N : Nat) (hN : 0 < N) (hkN : k ≤ N) :
    100 * k / N ≤ progressValue k N + 1 ∧
    progressValue k N ≤ 100 * k / N + 1 := by
  rcases Nat.eq_zero_or_pos k with rfl | hk
  · rw [progressValue_zero]
    have h0 : 100 * 0 / N = 0 := by simp
    omega
  · have hK : (0 : ℚ) < (k : ℚ) := by exact_mod_cast hk
    have hM : (0 : ℚ) < (N : ℚ) := by exact_mod_cast hN
    have hKM : ((k : ℚ)) ≤ (N : ℚ) := by exact_mod_cast hkN
    obtain ⟨hlow, hhigh⟩ := fl32_progress_err (k : ℚ) (N : ℚ) hK hM hKM
    set m := fl32 (fl32 (fl32 (k : ℚ) / fl32 (N : ℚ)) * 100) with hmdef
    have hPdef : progressValue k N = (⌊m⌋).toNat := by
      rw [progressValue]
    have hfloor : ⌊(100 * ((k : ℚ) / (N : ℚ)) : ℚ)⌋ =
        ((100 * k / N : Nat) : Int) := by
      have hr : (100 * ((k : ℚ) / (N : ℚ)) : ℚ) =
          ((100 * k : Nat) : ℚ) / ((N : Nat) : ℚ) := by
        push_cast
        ring
      rw [hr, Rat.floor_natCast_div_natCast]
      exact (Int.ofNat_div _ _).symm
    have hmnn : 0 ≤ m := fl32_nonneg _
    have hfl0 : (0 : Int) ≤ ⌊m⌋ := Int.floor_nonneg.mpr hmnn
    have hup : ⌊m⌋ ≤ ⌊(100 * ((k : ℚ) / (N : ℚ)) : ℚ)⌋ + 1 := by
      have h1 : m ≤ (100 * ((k : ℚ) / (N : ℚ)) : ℚ) + 1 := by linarith
      calc ⌊m⌋ ≤ ⌊(100 * ((k : ℚ) / (N : ℚ)) : ℚ) + 1⌋ := Int.floor_le_floor h1
        _ = ⌊(100 * ((k : ℚ) / (N : ℚ)) : ℚ)⌋ + 1 := Int.floor_add_one _
    have hdown : ⌊(100 * ((k : ℚ) / (N : ℚ)) : ℚ)⌋ - 1 ≤ ⌊m⌋ := by
      rw [Int.le_floor]
      have h1 : ((⌊(100 * ((k : ℚ) / (N : ℚ)) : ℚ)⌋ : ℚ)) ≤
          100 * ((k : ℚ) / (N : ℚ)) := Int.floor_le _
      push_cast
      linarith
    rw [hfloor] at hup hdown
    rw [hPdef]
    omega

unseal Rat.sub Rat.add Rat.mul Rat.inv in
/-- C6 counterexample: with 53 of 100 tasks done, `_outputProgress`
computes 52, not `floor(100 * 53 / 100) = 53`: the single-precision
quotient `(float)53 / (float)100` rounds below `0.53`, and after the
multiplication by 100 the truncating cast yields 52.  The value written
through `m_pProgress` is therefore not `floor(100 * k / N)`. -/
theorem outputProgress_not_exact_floor :
    taskDoneCount (List.replicate 53 true ++ List.replicate 47 false) = 53 ∧
    (List.replicate 53 true ++ List.replicate 47 false).length = 100 ∧
    outputProgress true (some (smSize 1920 1080 32 - 2))
      (List.replicate 53 true ++ List.replicate 47 false) = (none, some 52) ∧
    100 * 53 / 100 = 53 := by
  refine ⟨by decide, by decide, by decide, by decide⟩

/-- C6 amended: in Blender mode with a non-null progress pointer, a
progress report writes through `m_pProgress` the single-precision value
`progressValue`, which lies within one unit of the exact percentage
`floor(100 * taskDone / totalTask)` but does not always equal it. -/
theorem outputProgress_writes_float_progress (pp : Nat) (flags : List Bool)
    (hne : flags ≠ []) :
    ∃ v, outputProgress true (some pp) flags = (none, some v) ∧
      v = progressValue (taskDoneCount flags) flags.length ∧
      100 * taskDoneCount flags / flags.length ≤ v + 1 ∧
      v ≤ 100 * taskDoneCount flags / flags.length + 1 := by
  have hlen : 0 < flags.length := List.length_pos.mpr hne
  obtain ⟨h1, h2⟩ := progressValue_bounds (taskDoneCount flags) flags.length
    hlen (taskDoneCount_le_length flags)
  exact ⟨progressValue (taskDoneCount flags) flags.length, rfl, rfl, h1, h2⟩

/-- Witness for the amended C6 at a concrete completion table. -/
theorem outputProgress_writes_float_progress_witness :
    ∃ v, outputProgress true (some 0) [true, false] = (none, some v) ∧
      v = progressValue (taskDoneCount [true, false])
        (List.length [true, false]) ∧
      100 * taskDoneCount [true, false] / List.length [true, false] ≤ v + 1 ∧
      v ≤ 100 * taskDoneCount [true, false] / List.length [true, false] + 1 :=
  outputProgress_writes_float_progress 0 [true, false] (by decide)

/-- C7 counterexample: shared-memory allocation failure leaves
`m_pProgress` null; in Blender mode a subsequent progress report then
prints nothing to the console and writes nothing — it is silently
dropped, not degraded to a console print.  (`Setup` does return `true`.) -/
theorem outputProgress_allocFail_counterexample :
    setupModel
      { sceneElem := some (some "scene.xml")
        integratorElem := some (some "pathtracing")
        samplerElem := none
        samplerTypeValid := true
        cameraElem := some (some "perspective")
        cameraTypeValid := true } false = SetupResult.returnedTrue false ∧
    outputProgress true none [true] = (none, none) := by
  exact ⟨rfl, rfl⟩

/-- C7 amended: when the shared-memory allocation fails (null region
pointer, `m_pProgress` stays null), `Setup` on a well-formed scene file
still returns `true` and the render proceeds; no progress report ever
writes through the null pointer; but console printing is governed solely
by `g_bBlenderMode`: outside Blender mode every report prints the
percentage to the console, while in Blender mode the report is silently
dropped rather than redirected to the console. -/
theorem setup_allocFail_degrades (doc : SceneFileDoc) (blender : Bool)
    (flags : List Bool)
    (hs : ∃ v, doc.sceneElem = some (some v))
    (hi : ∃ t, doc.integratorElem = some (some t))
    (hsam : doc.samplerElem = none ∨
      (∃ st rd, doc.samplerElem = some (st, some rd) ∧
        doc.samplerTypeValid = true))
    (hc : ∃ c, doc.cameraElem = some c)
    (hcv : doc.cameraTypeValid = true) :
    setupModel doc false = SetupResult.returnedTrue false ∧
    (outputProgress blender none flags).2 = none ∧
    (blender = false →
      (outputProgress blender none flags).1 =
        some (progressValue (taskDoneCount flags) flags.length)) ∧
    (blender = true → (outputProgress blender none flags).1 = none) := by
  obtain ⟨v, hv⟩ := hs
  obtain ⟨t, ht⟩ := hi
  obtain ⟨c, hcc⟩ := hc
  refine ⟨?_, ?_, ?_, ?_⟩
  · rw [setupModel, hv, ht]
    rcases hsam with hnone | ⟨st, rd, hrd, hvalid⟩
    · rw [hnone, setupCameraOn, hcc, if_pos hcv]
    · rw [hrd, if_pos hvalid, setupCameraOn, hcc, if_pos hcv]
  · cases blender <;> rfl
  · intro hb
    subst hb
    rfl
  · intro hb
    subst hb
    rfl

/-- Witness for the amended C7 at a concrete scene file and report. -/
theorem setup_allocFail_degrades_witness :
    setupModel
      { sceneElem := some (some "scene.xml")
        integratorElem := some (some "pathtracing")
        samplerElem := some (some "stratified", some "16")
        samplerTypeValid := true
        cameraElem := some (some "perspective")
        cameraTypeValid := true } false = SetupResult.returnedTrue false ∧
    (outputProgress true none [true, true]).2 = none ∧
    (true = false →
      (outputProgress true none [true, true]).1 =
        some (progressValue (taskDoneCount [true, true])
          (List.length [true, true]))) ∧
    (true = true → (outputProgress true none [true, true]).1 = none) :=
  setup_allocFail_degrades _ true [true, true] ⟨"scene.xml", rfl⟩
    ⟨"pathtracing", rfl⟩ (Or.inr ⟨some "stratified", "16", rfl, rfl⟩)
    ⟨some "perspective", rfl⟩ rfl


end SORT
